import Mathlib

/-!
Shallow embedding of the connectivity and buffer-routing core of the
audio-graph repository (files `src/agio.rs` and `src/buffer.rs`), together
with theorems settling the specification claims about it.

Rust-side conventions of the embedding:
* `HashSet<Port>` is modelled as `Finset Port` (pure set semantics; Rust
  `insert`/`remove` return values are recovered from membership tests).
* `StableVec<T>` is modelled as `List (Option T)`: an occupied slot is
  `some`, an empty slot is `none`; `remove` clears a slot without shifting.
* Machine integers (`usize`) are modelled as `Nat` (no arithmetic in the
  sources can overflow a `usize` before memory is exhausted).
* Rust panics (`unwrap` on `None`, out-of-bounds indexing/slicing) are made
  explicit as the `Crash` error of an `Except Crash` result where a claim
  is about panicking behaviour, and are totalized with a default value
  (empty interface / no-op update) in graph code whose claims only concern
  non-panicking executions.
* `&mut self` methods become state-passing functions returning the result
  value paired with the updated value.
-/

/-- Rust panic causes that the buffer claims distinguish from value-level
`Option` results. -/
inductive Crash where
  | unwrapNone
  | indexOutOfBounds
  | sliceOutOfRange
deriving DecidableEq, Repr

instance {ε α : Type} [DecidableEq ε] [DecidableEq α] :
    DecidableEq (Except ε α) := fun x y =>
  match x, y with
  | .ok a, .ok b =>
    if h : a = b then .isTrue (by rw [h])
    else .isFalse (by intro hc; cases hc; exact h rfl)
  | .error a, .error b =>
    if h : a = b then .isTrue (by rw [h])
    else .isFalse (by intro hc; cases hc; exact h rfl)
  | .ok _, .error _ => .isFalse (by intro hc; cases hc)
  | .error _, .ok _ => .isFalse (by intro hc; cases hc)

/-- `OutputBufferIndex` from `buffer.rs`: where a node's output is written.
`Master i` forwards to the parent scope's output `i`; `Local i` is this
scope's own buffer `i`. -/
inductive OutputBufferIndex where
  | Master (i : Nat)
  | Local (i : Nat)
deriving DecidableEq, Repr

/-- `BufferIndex` from `buffer.rs`: where a node's input comes from.
`MasterInput i` forwards to the parent scope's input `i`; `Output o` reads
a buffer produced in the same scope chain. -/
inductive BufferIndex where
  | MasterInput (i : Nat)
  | Output (o : OutputBufferIndex)
deriving DecidableEq, Repr

mutual

/-- `LocalBufferNode<'a, T>`: an optional parent scope (the trait object
`dyn BufferNodeImpl<T>`, in practice always a `BufferNode`) plus the
locally owned buffers (`OwnedBuffer<T>` is modelled as `List T`). -/
inductive LocalBufferNode (T : Type) where
  | mk (parent : Option (BufferNode T)) (buffers : List (List T))

/-- `BufferNode<'a, T>`: a `LocalBufferNode` plus the node's two fixed
index tables. -/
inductive BufferNode (T : Type) where
  | mk (node : LocalBufferNode T) (inputs : List (Option BufferIndex))
      (outputs : List (Option OutputBufferIndex))

end

/-- Field accessor for the `parent` component. -/
def LocalBufferNode.parent : LocalBufferNode T → Option (BufferNode T)
  | .mk p _ => p

/-- Field accessor for the `buffers` component. -/
def LocalBufferNode.buffers : LocalBufferNode T → List (List T)
  | .mk _ b => b

/-- Field accessor for the `node` component. -/
def BufferNode.node : BufferNode T → LocalBufferNode T
  | .mk n _ _ => n

/-- Field accessor for the `inputs` index table. -/
def BufferNode.inputs : BufferNode T → List (Option BufferIndex)
  | .mk _ i _ => i

/-- Field accessor for the `outputs` index table. -/
def BufferNode.outputs : BufferNode T → List (Option OutputBufferIndex)
  | .mk _ _ o => o

/-- `LocalBufferNode::toplevel(buffers)`. -/
def LocalBufferNode.toplevel (buffers : List (List T)) : LocalBufferNode T :=
  .mk none buffers

/-- `LocalBufferNode::with_indices(inputs, outputs)`. -/
def LocalBufferNode.with_indices (n : LocalBufferNode T)
    (inputs : List (Option BufferIndex))
    (outputs : List (Option OutputBufferIndex)) : BufferNode T :=
  .mk n inputs outputs

/-- `BufferNode::append(buffers)`: a child scope whose parent is `b`. -/
def BufferNode.append (b : BufferNode T) (buffers : List (List T)) :
    LocalBufferNode T :=
  .mk (some b) buffers

mutual

/-- `LocalBufferNode::get_output`.  `Master i` forwards to the parent
(`unwrap` panics when there is none); `Local i` indexes the own buffers
(out-of-bounds indexing panics). -/
def LocalBufferNode.get_output : LocalBufferNode T → OutputBufferIndex →
    Except Crash (Option (List T))
  | .mk parent _, .Master i =>
    match parent with
    | none => .error .unwrapNone
    | some p => p.get_output i
  | .mk _ buffers, .Local i =>
    if h : i < buffers.length then .ok (some buffers[i])
    else .error .indexOutOfBounds

/-- `BufferNodeImpl::get_output` for `BufferNode`: two `Option` layers
(table position missing, table entry `None`) collapse to `none`; a present
entry is resolved through the scope chain. -/
def BufferNode.get_output : BufferNode T → Nat → Except Crash (Option (List T))
  | .mk node _ outputs, index =>
    match outputs[index]? with
    | none => .ok none
    | some none => .ok none
    | some (some bufIndex) => node.get_output bufIndex

end

mutual

/-- `LocalBufferNode::get_input`. -/
def LocalBufferNode.get_input : LocalBufferNode T → BufferIndex →
    Except Crash (Option (List T))
  | .mk parent _, .MasterInput i =>
    match parent with
    | none => .error .unwrapNone
    | some p => p.get_input i
  | n, .Output buf => n.get_output buf

/-- `BufferNodeImpl::get_input` for `BufferNode`. -/
def BufferNode.get_input : BufferNode T → Nat → Except Crash (Option (List T))
  | .mk node inputs _, index =>
    match inputs[index]? with
    | none => .ok none
    | some none => .ok none
    | some (some bufIndex) => node.get_input bufIndex

end

mutual

/-- `LocalBufferNode::get_output_shared`; the `Cell` view does not change
which buffer is selected, so its selection logic coincides with
`get_output`. -/
def LocalBufferNode.get_output_shared : LocalBufferNode T → OutputBufferIndex →
    Except Crash (Option (List T))
  | .mk parent _, .Master i =>
    match parent with
    | none => .error .unwrapNone
    | some p => p.get_output_shared i
  | .mk _ buffers, .Local i =>
    if h : i < buffers.length then .ok (some buffers[i])
    else .error .indexOutOfBounds

/-- `BufferNodeImpl::get_output_shared` for `BufferNode`. -/
def BufferNode.get_output_shared : BufferNode T → Nat →
    Except Crash (Option (List T))
  | .mk node _ outputs, index =>
    match outputs[index]? with
    | none => .ok none
    | some none => .ok none
    | some (some bufIndex) => node.get_output_shared bufIndex

end

mutual

/-- `LocalBufferNode::get_input_shared`; the `ReadOnly` view does not
change which buffer is selected. -/
def LocalBufferNode.get_input_shared : LocalBufferNode T → BufferIndex →
    Except Crash (Option (List T))
  | .mk parent _, .MasterInput i =>
    match parent with
    | none => .error .unwrapNone
    | some p => p.get_input_shared i
  | n, .Output buf => n.get_output_shared buf

/-- `BufferNodeImpl::get_input_shared` for `BufferNode`. -/
def BufferNode.get_input_shared : BufferNode T → Nat →
    Except Crash (Option (List T))
  | .mk node inputs _, index =>
    match inputs[index]? with
    | none => .ok none
    | some none => .ok none
    | some (some bufIndex) => node.get_input_shared bufIndex

end

/-- `&buf[start..][..len]`: the slicing panics unless the window fits. -/
def windowSlice (buf : List T) (start len : Nat) : Except Crash (List T) :=
  if start + len ≤ buf.length then .ok ((buf.drop start).take len)
  else .error .sliceOutOfRange

/-- `.map(|buf| &buf[start..][..len])` applied to a resolution result:
the panic surfaces only when a buffer was actually returned. -/
def mapWindow (r : Except Crash (Option (List T))) (start len : Nat) :
    Except Crash (Option (List T)) :=
  match r with
  | .error e => .error e
  | .ok none => .ok none
  | .ok (some buf) => (windowSlice buf start len).map some

/-- `BufferHandle<'a, T>`: a `BufferNode` plus a `(start, len)` window.
`len` models the value of the `NonZeroUsize` field. -/
structure BufferHandle (T : Type) where
  start : Nat
  len : Nat
  node : BufferNode T

/-- `LocalBufferHandle<'a, T>`. -/
structure LocalBufferHandle (T : Type) where
  start : Nat
  len : Nat
  node : LocalBufferNode T

/-- `BufferNode::with_buffer_pos(start, len)`. -/
def BufferNode.with_buffer_pos (b : BufferNode T) (start len : Nat) :
    BufferHandle T :=
  ⟨start, len, b⟩

/-- `LocalBufferNode::with_buffer_pos(start, len)`. -/
def LocalBufferNode.with_buffer_pos (n : LocalBufferNode T) (start len : Nat) :
    LocalBufferHandle T :=
  ⟨start, len, n⟩

/-- `BufferHandle::append(buffers)`. -/
def BufferHandle.append (h : BufferHandle T) (buffers : List (List T)) :
    LocalBufferHandle T :=
  ⟨h.start, h.len, h.node.append buffers⟩

/-- `LocalBufferHandle::with_indices(inputs, outputs)`. -/
def LocalBufferHandle.with_indices (h : LocalBufferHandle T)
    (inputs : List (Option BufferIndex))
    (outputs : List (Option OutputBufferIndex)) : BufferHandle T :=
  ⟨h.start, h.len, h.node.with_indices inputs outputs⟩

/-- `BufferHandle::get_input(index)`. -/
def BufferHandle.get_input (h : BufferHandle T) (index : Nat) :
    Except Crash (Option (List T)) :=
  mapWindow (h.node.get_input index) h.start h.len

/-- `BufferHandle::get_output(index)`. -/
def BufferHandle.get_output (h : BufferHandle T) (index : Nat) :
    Except Crash (Option (List T)) :=
  mapWindow (h.node.get_output index) h.start h.len

/-- `LocalBufferHandle::get_input(index)`. -/
def LocalBufferHandle.get_input (h : LocalBufferHandle T) (index : BufferIndex) :
    Except Crash (Option (List T)) :=
  mapWindow (h.node.get_input index) h.start h.len

/-- `LocalBufferHandle::get_output(index)`. -/
def LocalBufferHandle.get_output (h : LocalBufferHandle T)
    (index : OutputBufferIndex) : Except Crash (Option (List T)) :=
  mapWindow (h.node.get_output index) h.start h.len

/-! ## Graph side: addressing types, `StableVec`, `Interface`, the graph -/

/-- Modelled from the spec: `NodeIndex` (defined in the repository's
`audio_graph` module, not present under `src/`) identifies either the
single global pseudo-node or a processor by its stable slot number;
equality is structural. -/
inductive NodeIndex where
  | Global
  | Processor (i : Nat)
deriving DecidableEq, Repr

/-- Modelled from the spec: `NodeIndex::is_global` (used by
`insert_edge` and `insert_opposite_ports`). -/
def NodeIndex.is_global : NodeIndex → Bool
  | .Global => true
  | .Processor _ => false

/-- Modelled from the spec: `Port` (repository type not present under
`src/`): one named pin, `{ index, node_index }`; structural equality and
hashing. -/
structure Port where
  index : Nat
  node_index : NodeIndex
deriving DecidableEq, Repr

/-- `Port::new(index, node_index)` as used in `insert_opposite_ports`. -/
def Port.new (index : Nat) (node_index : NodeIndex) : Port :=
  ⟨index, node_index⟩

/-- Numeric rank of a node index, used only to fix a deterministic
iteration order over port sets (Rust's `HashSet` iteration order is
arbitrary; the sources never depend on it). -/
def NodeIndex.rank : NodeIndex → Nat
  | .Global => 0
  | .Processor i => i + 1

/-- Injective encoding of a port into `Nat`, used only to fix a
deterministic iteration order. -/
def Port.encode (p : Port) : Nat :=
  Nat.pair p.index p.node_index.rank

instance portLinearOrder : LinearOrder Port :=
  LinearOrder.lift' Port.encode (by
    intro a b h
    have h1 := congrArg Nat.unpair h
    simp only [Port.encode, Nat.unpair_pair] at h1
    obtain ⟨a1, a2⟩ := a
    obtain ⟨b1, b2⟩ := b
    simp only [Prod.mk.injEq] at h1
    obtain ⟨hi, hn⟩ := h1
    cases a2 <;> cases b2 <;> simp_all [NodeIndex.rank])

/-- `HashSet<Port>` is modelled as a `Finset`. -/
abbrev Ports := Finset Port

/-- Deterministic iteration order over a port set (Rust's `HashSet`
iteration order is arbitrary and the sources never depend on it):
insertion sort of the underlying multiset, which is invariant under
permutation of the representing list. -/
def portSort (s : Ports) : List Port :=
  Quot.liftOn s.val (List.insertionSort (· ≤ ·)) (fun l1 l2 h =>
    List.eq_of_perm_of_sorted
      (((List.perm_insertionSort (· ≤ ·) l1).trans h).trans
        (List.perm_insertionSort (· ≤ ·) l2).symm)
      (List.sorted_insertionSort (· ≤ ·) l1)
      (List.sorted_insertionSort (· ≤ ·) l2))

/-- `StableVec<T>` modelled as a list of slots: `some` is an occupied
slot, `none` an empty one. -/
abbrev StableVec (T : Type) := List (Option T)

/-- `StableVec::first_empty_slot_from(0)`: index of the lowest empty
slot, if any. -/
def StableVec.first_empty_slot_from0 (v : StableVec T) : Option Nat :=
  v.findIdx? Option.isNone

/-- `StableVec::insert(i, item)` at an existing slot index. -/
def StableVec.insertAt (v : StableVec T) (i : Nat) (x : T) : StableVec T :=
  v.set i (some x)

/-- `StableVec::get(i)`: `some` only for an occupied slot. -/
def StableVec.get (v : StableVec T) (i : Nat) : Option T :=
  (v[i]?).bind id

/-- `StableVec::remove(i)`: empties slot `i` (no shifting) and returns
the removed element, if the slot was occupied. -/
def StableVec.remove (v : StableVec T) (i : Nat) : Option T × StableVec T :=
  match v.get i with
  | some x => (some x, v.set i none)
  | none => (none, v)

/-- `insert_at_next_empty_slot` from `agio.rs`: reuse the lowest empty
slot, else push; returns the slot index used (paired with the updated
collection). -/
def insert_at_next_empty_slot (v : StableVec T) (x : T) : Nat × StableVec T :=
  match v.first_empty_slot_from0 with
  | some i => (i, v.insertAt i x)
  | none => (v.length, v ++ [some x])

/-- `Interface` from `agio.rs`: one port set per local port, plus the
opposite-side port count. -/
structure Interface where
  ports : List Ports
  num_opposite_ports : Nat
deriving DecidableEq

/-- `Interface::with_io_config(num_ports, num_opposite_ports)`. -/
def Interface.with_io_config (num_ports num_opposite_ports : Nat) : Interface :=
  ⟨List.replicate num_ports ∅, num_opposite_ports⟩

/-- `Interface::with_opposite_config()`. -/
def Interface.with_opposite_config (itf : Interface) : Interface :=
  Interface.with_io_config itf.num_opposite_ports itf.ports.length

/-- `Interface::get_connections(index)`. -/
def Interface.get_connections (itf : Interface) (index : Nat) : Option Ports :=
  itf.ports[index]?

/-- Updating one port set of an interface (the effect of
`get_connections_mut`-based mutation; out-of-range updates cannot occur
in non-panicking executions and are no-ops in the model). -/
def Interface.setPortSet (itf : Interface) (index : Nat) (s : Ports) :
    Interface :=
  ⟨itf.ports.set index s, itf.num_opposite_ports⟩

/-- `ports.retain(|port| port.node_index != NodeIndex::Processor(index))`
applied to every port set of an interface (the loop body of
`remove_processor`). -/
def Interface.purge (itf : Interface) (n : NodeIndex) : Interface :=
  ⟨itf.ports.map (fun s => s.filter (fun p => p.node_index ≠ n)),
   itf.num_opposite_ports⟩

/-- `AudioGraphIO` from `agio.rs` (trailing `IO` dropped from the Lean
name): the slot-stable processor interfaces plus the global interface. -/
structure AudioGraphIo where
  processors : StableVec Interface
  global : Interface
deriving DecidableEq

/-- `AudioGraphIO::with_global_io_config`. -/
def AudioGraphIo.with_global_io_config
    (num_global_io_ports num_opposite_global_io_ports : Nat) : AudioGraphIo :=
  ⟨[], Interface.with_io_config num_opposite_global_io_ports
        num_global_io_ports⟩

/-- `AudioGraphIO::with_opposite_config`: every occupied slot is
rebuilt, at the same index, with the swapped configuration (the fresh
`StableVec` built by the source loop has the same occupied slots; unused
capacity is not observable through `get`). -/
def AudioGraphIo.with_opposite_config (g : AudioGraphIo) : AudioGraphIo :=
  ⟨g.processors.map (Option.map Interface.with_opposite_config),
   g.global.with_opposite_config⟩

/-- `AudioGraphIO::get_node`. -/
def AudioGraphIo.get_node (g : AudioGraphIo) : NodeIndex → Option Interface
  | .Global => some g.global
  | .Processor i => g.processors.get i

/-- `self[node]` (the `Index<NodeIndex>` impl, `get_node(..).unwrap()`):
totalized with the empty interface; every claim that depends on it only
does so at nodes where `get_node` succeeds. -/
def AudioGraphIo.node (g : AudioGraphIo) (n : NodeIndex) : Interface :=
  (g.get_node n).getD ⟨[], 0⟩

/-- `AudioGraphIO::get_connections(port)`. -/
def AudioGraphIo.get_connections (g : AudioGraphIo) (p : Port) : Option Ports :=
  (g.get_node p.node_index).bind fun itf => itf.get_connections p.index

/-- `self[port]` (the `Index<Port>` impl, `get_connections(..).unwrap()`):
totalized with the empty set. -/
def AudioGraphIo.connections (g : AudioGraphIo) (p : Port) : Ports :=
  (g.get_connections p).getD ∅

/-- Writing back one node's interface (the effect of mutation through
`get_node_mut`); a vacant or out-of-range processor slot is left
unchanged (such writes only arise in executions where the source would
have panicked). -/
def AudioGraphIo.setNode (g : AudioGraphIo) (n : NodeIndex) (itf : Interface) :
    AudioGraphIo :=
  match n with
  | .Global => ⟨g.processors, itf⟩
  | .Processor i =>
    match g.processors.get i with
    | some _ => ⟨g.processors.set i (some itf), g.global⟩
    | none => g

/-- Writing back one port set (the effect of mutation through
`get_connections_mut` / `self[port]`). -/
def AudioGraphIo.setConnections (g : AudioGraphIo) (p : Port) (s : Ports) :
    AudioGraphIo :=
  g.setNode p.node_index ((g.node p.node_index).setPortSet p.index s)

/-- `AudioGraphIO::insert_processor`. -/
def AudioGraphIo.insert_processor (g : AudioGraphIo)
    (num_ports num_opposite_ports : Nat) : Nat × AudioGraphIo :=
  let r := insert_at_next_empty_slot g.processors
    (Interface.with_io_config num_ports num_opposite_ports)
  (r.1, ⟨r.2, g.global⟩)

/-- `AudioGraphIO::remove_processor`: on success every *processor*
interface's port sets are purged of references to the removed slot (the
source loop runs over `self.processors.values_mut()` only; the global
interface is not touched). -/
def AudioGraphIo.remove_processor (g : AudioGraphIo) (index : Nat) :
    Bool × AudioGraphIo :=
  match g.processors.remove index with
  | (some _, procs) =>
    (true,
     ⟨procs.map (Option.map fun itf => itf.purge (NodeIndex.Processor index)),
      g.global⟩)
  | (none, _) => (false, g)

/-- Modelled from the spec: `EdgeNotFound` (repository error type not
present under `src/`): per-endpoint resolvability, `none` when the node
itself is missing, `some b` recording whether the port index was in
range. -/
structure EdgeNotFound where
  from_port : Option Bool
  to_port : Option Bool
deriving DecidableEq, Repr

/-- Modelled from the spec: `EdgeNotFound::is_not_error` — the
validation passes exactly when both endpoints resolved. -/
def EdgeNotFound.is_not_error (e : EdgeNotFound) : Bool :=
  e.from_port == some true && e.to_port == some true

/-- Modelled from the spec: the unit error struct `CycleFound`. -/
structure CycleFound where
deriving DecidableEq, Repr

/-- Modelled from the spec: `EdgeInsertError` — either endpoint
validation failed, or the edge would close a cycle. -/
inductive EdgeInsertError where
  | NotFound (e : EdgeNotFound)
  | CycleFound (c : CycleFound)
deriving DecidableEq, Repr

/-- The `EdgeNotFound` value built identically at the top of
`remove_edge` and `insert_edge`. -/
def AudioGraphIo.edgeNotFoundFor (g : AudioGraphIo) (fp tp : Port) :
    EdgeNotFound :=
  ⟨(g.get_node fp.node_index).map fun itf =>
      (itf.get_connections fp.index).isSome,
   (g.get_node tp.node_index).map fun itf =>
      decide (tp.index < itf.num_opposite_ports)⟩

/-- The ports reachable in one hop out of `n`: the nested
`ports().iter().any(|ports| ports.iter().any(..))` iteration of
`connected`, flattened into a single sequential list (Rust's `HashSet`
iteration order is arbitrary; the model fixes the sorted order). -/
def AudioGraphIo.neighborPorts (g : AudioGraphIo) (n : NodeIndex) :
    List Port :=
  ((g.node n).ports.map portSort).flatten

/-- The sequential short-circuiting `any` of `connected`, threading the
shared `&mut visited` set through the call `f` made on each port in
turn. -/
def scanPorts (f : NodeIndex → Finset NodeIndex → Bool × Finset NodeIndex) :
    List Port → Finset NodeIndex → Bool × Finset NodeIndex
  | [], visited => (false, visited)
  | p :: ps, visited =>
    let r := f p.node_index visited
    if r.1 then r else scanPorts f ps r.2

/-- `AudioGraphIO::connected`, with explicit fuel: the source recursion
terminates because `visited` grows strictly, which bounds the recursion
depth by the number of distinct nodes; `fuel` makes that bound explicit
and is chosen large enough (`fuelBound`) to never be exhausted. -/
def AudioGraphIo.connectedGo (g : AudioGraphIo) (to_node : NodeIndex) :
    Nat → NodeIndex → Finset NodeIndex → Bool × Finset NodeIndex
  | 0, _, visited => (false, visited)
  | fuel + 1, from_node, visited =>
    if from_node = to_node then (true, visited)
    else if from_node ∈ visited then (false, visited)
    else
      scanPorts (g.connectedGo to_node fuel) (g.neighborPorts from_node)
        (insert from_node visited)

/-- Fuel sufficient for any `connected` query on `g`: one unit per
possibly-visited node (the global node plus one per processor slot) plus
one for a terminal frame. -/
def AudioGraphIo.fuelBound (g : AudioGraphIo) : Nat :=
  g.processors.length + 2

/-- `connected(from_node, to_node, &mut visited)` as called from
`insert_edge` (fresh empty `visited`). -/
def AudioGraphIo.connected (g : AudioGraphIo) (from_node to_node : NodeIndex) :
    Bool :=
  (g.connectedGo to_node g.fuelBound from_node ∅).1

/-- `self[port].insert(this_port)` as performed by
`insert_opposite_ports`. -/
def AudioGraphIo.insertConn (g : AudioGraphIo) (p q : Port) : AudioGraphIo :=
  g.setConnections p (insert q (g.connections p))

/-- The iteration space of `insert_opposite_ports` at node `n` of the
primary graph: `for (i, incoming_ports) in inputs[n].ports().iter().enumerate()`,
`for &port in incoming_ports.iter()`, flattened into the sequential list
of pairs `(this_port, port)` with `this_port = Port::new(i, n)`. -/
def AudioGraphIo.oppPairs (inputs : AudioGraphIo) (n : NodeIndex) :
    List (Port × Port) :=
  ((inputs.node n).ports.enum.map fun is =>
    (portSort is.2).map fun p => (Port.new is.1 n, p)).flatten

/-- The loop body of `insert_opposite_ports`, parametrized by the
recursive continuation `f`: mirror the edge, then (for an unregistered
source) recurse unless it is the global node, and register it. -/
def oppScan
    (f : AudioGraphIo → NodeIndex → Finset NodeIndex → List NodeIndex →
      AudioGraphIo × Finset NodeIndex × List NodeIndex) :
    List (Port × Port) → AudioGraphIo → Finset NodeIndex → List NodeIndex →
    AudioGraphIo × Finset NodeIndex × List NodeIndex
  | [], self, registered, register_order => (self, registered, register_order)
  | pair :: rest, self, registered, register_order =>
    let self1 := self.insertConn pair.2 pair.1
    let next_idx := pair.2.node_index
    if next_idx ∈ registered then
      oppScan f rest self1 registered register_order
    else
      let st :=
        if next_idx.is_global then (self1, registered, register_order)
        else f self1 next_idx registered register_order
      oppScan f rest st.1 (insert next_idx st.2.1) (st.2.2 ++ [next_idx])

/-- `AudioGraphIO::insert_opposite_ports(inputs, node_index, registered,
register_order)` acting on `self`, with explicit fuel: the source
recursion terminates on acyclic primary graphs because every recursive
call follows one primary-graph hop and a path in an acyclic finite graph
has bounded length; `fuel` makes that bound explicit. -/
def AudioGraphIo.insertOppGo (inputs : AudioGraphIo) :
    Nat → AudioGraphIo → NodeIndex → Finset NodeIndex → List NodeIndex →
    AudioGraphIo × Finset NodeIndex × List NodeIndex
  | 0, self, _, registered, register_order => (self, registered, register_order)
  | fuel + 1, self, n, registered, register_order =>
    oppScan (AudioGraphIo.insertOppGo inputs fuel)
      (AudioGraphIo.oppPairs inputs n) self registered register_order

/-- `insert_opposite_ports` at the fuel bound sufficient for every
acyclic well-formed primary graph. -/
def AudioGraphIo.insert_opposite_ports (self inputs : AudioGraphIo)
    (node_index : NodeIndex) (registered : Finset NodeIndex)
    (register_order : List NodeIndex) :
    AudioGraphIo × Finset NodeIndex × List NodeIndex :=
  AudioGraphIo.insertOppGo inputs inputs.fuelBound self node_index registered
    register_order

/-- `AudioGraphIO::remove_edge`. -/
def AudioGraphIo.remove_edge (g : AudioGraphIo) (fp tp : Port) :
    Except EdgeNotFound Bool × AudioGraphIo :=
  let error := g.edgeNotFoundFor fp tp
  if error.is_not_error then
    (Except.ok (tp ∈ g.connections fp),
     g.setConnections fp ((g.connections fp).erase tp))
  else (Except.error error, g)

/-- `AudioGraphIO::insert_edge`. -/
def AudioGraphIo.insert_edge (g : AudioGraphIo) (fp tp : Port) :
    Except EdgeInsertError Bool × AudioGraphIo :=
  let error := g.edgeNotFoundFor fp tp
  if error.is_not_error then
    if !(fp.node_index.is_global || tp.node_index.is_global)
        && g.connected tp.node_index fp.node_index then
      (Except.error (EdgeInsertError.CycleFound ⟨⟩), g)
    else
      (Except.ok (tp ∉ g.connections fp),
       g.setConnections fp (insert tp (g.connections fp)))
  else (Except.error (EdgeInsertError.NotFound error), g)

/-! ## Specification-level notions used to state the claims -/

/-- One directed hop of the graph: some port set of `a`'s interface
contains a port on node `b` (this is exactly the neighbour relation that
`connected` explores). -/
def AudioGraphIo.step (g : AudioGraphIo) (a b : NodeIndex) : Prop :=
  ∃ s ∈ (g.node a).ports, ∃ p ∈ s, p.node_index = b

/-- Spec-level reachability: a directed path, possibly empty. -/
def AudioGraphIo.Reaches (g : AudioGraphIo) (a b : NodeIndex) : Prop :=
  Relation.ReflTransGen g.step a b

/-- One hop of the graph restricted to non-global nodes. -/
def AudioGraphIo.stepNG (g : AudioGraphIo) (a b : NodeIndex) : Prop :=
  a.is_global = false ∧ b.is_global = false ∧ g.step a b

/-- The graph restricted to non-global nodes is acyclic: no node lies on
a nonempty directed path back to itself. -/
def AudioGraphIo.AcyclicNG (g : AudioGraphIo) : Prop :=
  ∀ n, ¬Relation.TransGen g.stepNG n n

/-- The node exists in the graph (the global pseudo-node, or an occupied
processor slot). -/
@[reducible]
def AudioGraphIo.validNode (g : AudioGraphIo) (n : NodeIndex) : Prop :=
  (g.get_node n).isSome

/-- Spec invariant: no port set contains a port referencing a node that
does not exist. -/
def AudioGraphIo.WF (g : AudioGraphIo) : Prop :=
  ∀ a : NodeIndex, ∀ s ∈ (g.node a).ports, ∀ p ∈ s, g.validNode p.node_index

/-- Spec invariant: every stored port's index is in range of the
opposite-side degree of its node. -/
def AudioGraphIo.WFDeg (g : AudioGraphIo) : Prop :=
  ∀ a : NodeIndex, ∀ s ∈ (g.node a).ports, ∀ p ∈ s,
    p.index < (g.node p.node_index).num_opposite_ports

/-- Spec invariant: in a given `AudioGraphIO` instance the global node
sits on one side only — it is never both a source recorded in some port
set and a destination owning nonempty port sets. -/
def AudioGraphIo.GlobalOneSided (g : AudioGraphIo) : Prop :=
  (∀ a : NodeIndex, ∀ s ∈ (g.node a).ports, ∀ p ∈ s,
      p.node_index ≠ NodeIndex.Global) ∨
  ∀ s ∈ g.global.ports, s = ∅

/-- The finitely many node indices that can ever enter a `visited` set
on a well-formed graph. -/
def AudioGraphIo.validNodes (g : AudioGraphIo) : Finset NodeIndex :=
  insert NodeIndex.Global
    ((Finset.range g.processors.length).image NodeIndex.Processor)

/-- Positional dependency-first property of a registration order: every
direct dependency (one primary-graph hop) of the node at position `k`
appears strictly earlier. -/
def AudioGraphIo.OrdInv (I : AudioGraphIo) (o : List NodeIndex) : Prop :=
  ∀ k, (hk : k < o.length) → ∀ m, I.step (o.get ⟨k, hk⟩) m → m ∈ o.take k

/-- Every registered non-global node already has all its incoming
primary edges mirrored into `self`. -/
def AudioGraphIo.MirrorDone (I self : AudioGraphIo) (o : List NodeIndex) :
    Prop :=
  ∀ n ∈ o, n.is_global = false →
    ∀ pr ∈ I.oppPairs n, pr.1 ∈ self.connections pr.2

/-- `self` resolves exactly the ports that the freshly built mirror of
`I` resolves (same nodes, same port-set counts). -/
def AudioGraphIo.MirrorShape (I self : AudioGraphIo) : Prop :=
  ∀ q : Port, (self.get_connections q).isSome
    = ((I.with_opposite_config).get_connections q).isSome

/-! ## Concrete instances used by counterexamples and witnesses -/

/-- A top-level scope with no buffers and empty index tables. -/
def egParent : BufferNode Nat :=
  (LocalBufferNode.toplevel []).with_indices [] []

/-- A nested scope under `egParent` whose input 0 is a present, valid
`MasterInput 0` entry. -/
def egChild : BufferNode Nat :=
  (egParent.append []).with_indices [some (.MasterInput 0)] []

/-- A graph with one global input port: global interface `[∅]`. -/
def egGlob0 : AudioGraphIo := AudioGraphIo.with_global_io_config 0 1

/-- `egGlob0` after inserting one processor with one port and one
opposite port (slot 0). -/
def egGlob1 : AudioGraphIo := (egGlob0.insert_processor 1 1).2

/-- `egGlob1` after inserting the edge global port 0 → processor-0
port 0 (stored in the global port set). -/
def egGlob2 : AudioGraphIo :=
  (egGlob1.insert_edge (Port.new 0 .Global) (Port.new 0 (.Processor 0))).2

/-- An empty-global graph with two processors in slots 0 and 1. -/
def egTwo : AudioGraphIo :=
  ((((AudioGraphIo.with_global_io_config 0 0).insert_processor 0 0).2).insert_processor 0 0).2

/-- `egTwo` with slot 0 removed: slot 0 empty, slot 1 occupied. -/
def egTwoR0 : AudioGraphIo := (egTwo.remove_processor 0).2

/-- A graph with two one-port processors. -/
def egPair : AudioGraphIo :=
  ((((AudioGraphIo.with_global_io_config 0 0).insert_processor 1 1).2).insert_processor 1 1).2

/-- `egPair` with the edge processor-0 port 0 → processor-1 port 0
(stored in processor 0's port set). -/
def egPairE : AudioGraphIo :=
  (egPair.insert_edge (Port.new 0 (.Processor 0)) (Port.new 0 (.Processor 1))).2

/-- The mirror build of `egPairE` started from the global node (which
has no ports here, so nothing is reachable). -/
def egPairEMirror : AudioGraphIo × Finset NodeIndex × List NodeIndex :=
  AudioGraphIo.insert_opposite_ports egPairE.with_opposite_config egPairE
    .Global ∅ []

/-- A numeric ranking of the nodes of `egPairE` that every edge strictly
increases (witnessing acyclicity). -/
def egPairRank : NodeIndex → Nat
  | .Global => 0
  | .Processor i => i


/-! # Theorems -/

/-! ## Buffer scope chain (claims C8, C9, C10) -/

/-- C9: a top-level `LocalBufferNode` (no parent) resolving a
`MasterInput`/`Master` index — through any of the four operations —
terminates the operation (panics on the `unwrap` of the absent parent)
instead of returning a value-level result, for every index. -/
theorem C9_toplevel_master_crash (T : Type) (buffers : List (List T)) (i : Nat) :
    (LocalBufferNode.toplevel buffers).get_input (.MasterInput i)
      = .error .unwrapNone ∧
    (LocalBufferNode.toplevel buffers).get_output (.Master i)
      = .error .unwrapNone ∧
    (LocalBufferNode.toplevel buffers).get_input_shared (.MasterInput i)
      = .error .unwrapNone ∧
    (LocalBufferNode.toplevel buffers).get_output_shared (.Master i)
      = .error .unwrapNone :=
  ⟨rfl, rfl, rfl, rfl⟩

/-- C8: buffer resolution follows the forwarding contract —
`MasterInput i` forwards to the parent's input `i`, `Local i` returns
the scope's own buffer `i`, `Master i` forwards to the parent's output
`i` — and in a three-level chain (top level owning buffer A, middle
level forwarding its input 0 upward, leaf declaring input 0 as
`MasterInput(0)`) resolving the leaf's input through a windowed handle
returns exactly the `(start, len)` window of buffer A. -/
theorem C8_buffer_resolution (T : Type) :
    (∀ (p : BufferNode T) (bufs : List (List T)) (i : Nat),
      (LocalBufferNode.mk (some p) bufs).get_input (.MasterInput i)
        = p.get_input i) ∧
    (∀ (parent : Option (BufferNode T)) (bufs : List (List T)) (i : Nat),
      i < bufs.length →
      (LocalBufferNode.mk parent bufs).get_output (.Local i)
        = .ok (some (bufs.getD i []))) ∧
    (∀ (p : BufferNode T) (bufs : List (List T)) (i : Nat),
      (LocalBufferNode.mk (some p) bufs).get_output (.Master i)
        = p.get_output i) ∧
    (∀ (bufA : List T) (start len : Nat), start + len ≤ bufA.length →
      (((((((LocalBufferNode.toplevel [bufA]).with_indices
          [some (.Output (.Local 0))] []).append []).with_indices
          [some (.MasterInput 0)] []).append []).with_indices
          [some (.MasterInput 0)] []).with_buffer_pos start len).get_input 0
        = .ok (some ((bufA.drop start).take len))) := by
  refine ⟨fun p bufs i => rfl, ?_, fun p bufs i => rfl, ?_⟩
  · intro parent bufs i h
    simp [LocalBufferNode.get_output, h, List.getD_eq_getElem?_getD,
      List.getElem?_eq_getElem h]
  · intro bufA start len h
    have hleaf :
        ((((((LocalBufferNode.toplevel [bufA]).with_indices
          [some (.Output (.Local 0))] []).append []).with_indices
          [some (.MasterInput 0)] []).append []).with_indices
          [some (.MasterInput 0)] []).get_input 0 = .ok (some bufA) := rfl
    simp [BufferHandle.get_input, BufferNode.with_buffer_pos, hleaf,
      mapWindow, windowSlice, h, Except.map]

/-- Witness for C8 at `bufA = [1,2,3,4]`, `start = 1`, `len = 2` (and the
`Local` conjunct at buffer `[[9]]`, index 0). -/
theorem C8_buffer_resolution_witness :
    ((0 : Nat) < ([[9]] : List (List Nat)).length ∧
      (LocalBufferNode.mk none [[9]]).get_output (.Local 0)
        = .ok (some (([[9]] : List (List Nat)).getD 0 []))) ∧
    (1 + 2 ≤ ([1, 2, 3, 4] : List Nat).length) ∧
    (((((((LocalBufferNode.toplevel [([1, 2, 3, 4] : List Nat)]).with_indices
        [some (.Output (.Local 0))] []).append []).with_indices
        [some (.MasterInput 0)] []).append []).with_indices
        [some (.MasterInput 0)] []).with_buffer_pos 1 2).get_input 0
      = .ok (some ((([1, 2, 3, 4] : List Nat).drop 1).take 2)) :=
  ⟨⟨by decide, (C8_buffer_resolution Nat).2.1 none [[9]] 0 (by decide)⟩,
   by decide,
   (C8_buffer_resolution Nat).2.2.2 [1, 2, 3, 4] 1 2 (by decide)⟩

/-- At a nested scope, a present and valid `MasterInput` table entry can
still resolve to "no buffer" (through the parent's own table), so the
claimed characterisation "`None` exactly when the index is out of the
table or the entry is `None`" fails at `egChild`. -/
theorem C10_none_counterexample :
    ¬(egChild.get_input 0 = .ok none ↔
      (egChild.inputs[0]? = none ∨ egChild.inputs[0]? = some none)) := by
  decide

/-- A top-level scope never turns a present, valid table entry into
`.ok none`: resolving it either returns a buffer or panics. -/
theorem toplevel_get_output_ne_none (T : Type) (bufs : List (List T))
    (ob : OutputBufferIndex) :
    (LocalBufferNode.mk none bufs).get_output ob ≠ .ok none := by
  cases ob with
  | Master i => simp [LocalBufferNode.get_output]
  | Local j =>
    simp only [LocalBufferNode.get_output]
    split <;> simp

/-- A top-level scope never turns a present, valid input table entry
into `.ok none`. -/
theorem toplevel_get_input_ne_none (T : Type) (bufs : List (List T))
    (bi : BufferIndex) :
    (LocalBufferNode.mk none bufs).get_input bi ≠ .ok none := by
  cases bi with
  | MasterInput i => simp [LocalBufferNode.get_input]
  | Output ob =>
    show (LocalBufferNode.mk none bufs).get_output ob ≠ .ok none
    exact toplevel_get_output_ne_none T bufs ob

/-- C10 (amended): the "no buffer" result arises only from the index
tables, never from local buffer bounds.  For a *top-level* `BufferNode`,
`get_input i` / `get_output i` return `.ok none` exactly when `i` is out
of range of the corresponding table or the entry is `None`; at a nested
node a valid `MasterInput` entry forwards to the parent (whose own
tables may produce `None`); and resolving `Local i` with `i` out of the
locally owned range panics instead of returning `None`. -/
theorem C10_none_only_from_tables (T : Type) :
    (∀ (bufs : List (List T)) (ins : List (Option BufferIndex))
      (outs : List (Option OutputBufferIndex)) (i : Nat),
      ((LocalBufferNode.toplevel bufs).with_indices ins outs).get_input i
        = .ok none ↔ (ins[i]? = none ∨ ins[i]? = some none)) ∧
    (∀ (bufs : List (List T)) (ins : List (Option BufferIndex))
      (outs : List (Option OutputBufferIndex)) (i : Nat),
      ((LocalBufferNode.toplevel bufs).with_indices ins outs).get_output i
        = .ok none ↔ (outs[i]? = none ∨ outs[i]? = some none)) ∧
    (∀ (parent : Option (BufferNode T)) (bufs : List (List T)) (j : Nat),
      bufs.length ≤ j →
      (LocalBufferNode.mk parent bufs).get_output (.Local j)
        = .error .indexOutOfBounds) ∧
    (∀ (p : BufferNode T) (bufs : List (List T))
      (ins : List (Option BufferIndex))
      (outs : List (Option OutputBufferIndex)) (i k : Nat),
      ins[i]? = some (some (.MasterInput k)) →
      ((LocalBufferNode.mk (some p) bufs).with_indices ins outs).get_input i
        = p.get_input k) := by
  refine ⟨?_, ?_, ?_, ?_⟩
  · intro bufs ins outs i
    cases hE : ins[i]? with
    | none =>
      simp [LocalBufferNode.with_indices, LocalBufferNode.toplevel,
        BufferNode.get_input, hE]
    | some o =>
      cases o with
      | none =>
        simp [LocalBufferNode.with_indices, LocalBufferNode.toplevel,
          BufferNode.get_input, hE]
      | some bi =>
        simp only [LocalBufferNode.with_indices, LocalBufferNode.toplevel,
          BufferNode.get_input, hE]
        exact iff_of_false (toplevel_get_input_ne_none T bufs bi) (by simp)
  · intro bufs ins outs i
    cases hE : outs[i]? with
    | none =>
      simp [LocalBufferNode.with_indices, LocalBufferNode.toplevel,
        BufferNode.get_output, hE]
    | some o =>
      cases o with
      | none =>
        simp [LocalBufferNode.with_indices, LocalBufferNode.toplevel,
          BufferNode.get_output, hE]
      | some ob =>
        simp only [LocalBufferNode.with_indices, LocalBufferNode.toplevel,
          BufferNode.get_output, hE]
        exact iff_of_false (toplevel_get_output_ne_none T bufs ob) (by simp)
  · intro parent bufs j hj
    simp [LocalBufferNode.get_output, Nat.not_lt.mpr hj]
  · intro p bufs ins outs i k hE
    simp [LocalBufferNode.with_indices, BufferNode.get_input, hE,
      LocalBufferNode.get_input]

/-- Witness for the amended C10 at concrete inputs: the `Local`
out-of-range conjunct at `[[5]]`, index 2, and the nested-forwarding
conjunct at `egParent` with table `[some (MasterInput 3)]`. -/
theorem C10_none_only_from_tables_witness :
    (([[5]] : List (List Nat)).length ≤ 2 ∧
      (LocalBufferNode.mk none [[5]]).get_output (.Local 2)
        = .error .indexOutOfBounds) ∧
    (([some (.MasterInput 3)] : List (Option BufferIndex))[0]?
        = some (some (.MasterInput 3)) ∧
      ((LocalBufferNode.mk (some egParent) []).with_indices
        [some (.MasterInput 3)] []).get_input 0 = egParent.get_input 3) :=
  ⟨⟨by decide, (C10_none_only_from_tables Nat).2.2.1 none [[5]] 2 (by decide)⟩,
   ⟨by decide,
    (C10_none_only_from_tables Nat).2.2.2 egParent [] [some (.MasterInput 3)]
      [] 0 3 (by decide)⟩⟩

/-! ## Opposite configuration (claim C7) -/

/-- C7: `with_opposite_config` swaps port count and opposite-port count
of every `Interface` (so original and mirror are opposite-configured),
and at graph level it preserves which processor slots are occupied,
applying the swap to every processor interface and to the global one. -/
theorem C7_opposite_config :
    (∀ itf : Interface,
      itf.with_opposite_config.ports.length = itf.num_opposite_ports ∧
      itf.with_opposite_config.num_opposite_ports = itf.ports.length) ∧
    (∀ (g : AudioGraphIo) (i : Nat),
      (g.with_opposite_config.processors.get i).isSome
        = (g.processors.get i).isSome) ∧
    (∀ (g : AudioGraphIo) (i : Nat) (itf : Interface),
      g.processors.get i = some itf →
      g.with_opposite_config.processors.get i
        = some itf.with_opposite_config) ∧
    (∀ g : AudioGraphIo,
      g.with_opposite_config.global = g.global.with_opposite_config) := by
  refine ⟨?_, ?_, ?_, fun g => rfl⟩
  · intro itf
    simp [Interface.with_opposite_config, Interface.with_io_config]
  · intro g i
    simp only [AudioGraphIo.with_opposite_config, StableVec.get,
      List.getElem?_map]
    cases hx : g.processors[i]? with
    | none => simp
    | some o => cases o <;> simp
  · intro g i itf h
    simp only [StableVec.get] at h
    simp only [AudioGraphIo.with_opposite_config, StableVec.get,
      List.getElem?_map]
    cases hx : g.processors[i]? with
    | none => simp [hx] at h
    | some o =>
      cases o with
      | none => simp [hx] at h
      | some itf0 =>
        simp [hx] at h
        simp [h]

/-- Witness for C7's occupied-slot conjunct at `egGlob1`, slot 0. -/
theorem C7_opposite_config_witness :
    egGlob1.processors.get 0 = some (Interface.with_io_config 1 1) ∧
    egGlob1.with_opposite_config.processors.get 0
      = some (Interface.with_io_config 1 1).with_opposite_config :=
  ⟨by decide, C7_opposite_config.2.2.1 egGlob1 0 _ (by decide)⟩

/-! ## Edge validation (claim C4) -/

/-- The `is_not_error` test passes exactly when `from` resolves to an
existing port set and `to`'s node exists with `to.index` within its
opposite degree. -/
theorem is_not_error_iff (g : AudioGraphIo) (fp tp : Port) :
    (g.edgeNotFoundFor fp tp).is_not_error = true ↔
    ((g.get_connections fp).isSome = true ∧ g.validNode tp.node_index ∧
      tp.index < (g.node tp.node_index).num_opposite_ports) := by
  cases hn : g.get_node fp.node_index with
  | none =>
    simp [EdgeNotFound.is_not_error, AudioGraphIo.edgeNotFoundFor, hn,
      AudioGraphIo.get_connections]
  | some itf =>
    cases hm : g.get_node tp.node_index with
    | none =>
      simp [EdgeNotFound.is_not_error, AudioGraphIo.edgeNotFoundFor, hn, hm,
        AudioGraphIo.get_connections, AudioGraphIo.validNode]
    | some itf2 =>
      simp [EdgeNotFound.is_not_error, AudioGraphIo.edgeNotFoundFor, hn, hm,
        AudioGraphIo.get_connections, AudioGraphIo.validNode,
        AudioGraphIo.node]

/-- C4: whenever `from` does not reference an existing port or `to` is
unresolvable (node missing or index at least the opposite degree),
`insert_edge` fails with an edge-not-found error whose two fields
report, each independently of the other endpoint, whether `from` and
whether `to` resolved — and the graph is left unchanged. -/
theorem C4_validation_failure (g : AudioGraphIo) (fp tp : Port)
    (h : ¬((g.get_connections fp).isSome = true ∧ g.validNode tp.node_index ∧
        tp.index < (g.node tp.node_index).num_opposite_ports)) :
    ∃ e : EdgeNotFound,
      g.insert_edge fp tp = (.error (.NotFound e), g) ∧
      e.from_port = (g.get_node fp.node_index).map
        (fun itf => (itf.get_connections fp.index).isSome) ∧
      e.to_port = (g.get_node tp.node_index).map
        (fun itf => decide (tp.index < itf.num_opposite_ports)) := by
  have hne : (g.edgeNotFoundFor fp tp).is_not_error = false := by
    rw [← Bool.not_eq_true, (is_not_error_iff g fp tp)]
    exact h
  refine ⟨g.edgeNotFoundFor fp tp, ?_, rfl, rfl⟩
  simp [AudioGraphIo.insert_edge, hne]

/-- Witness for C4 at `egGlob1` with an out-of-range `from` index. -/
theorem C4_validation_failure_witness :
    ¬((egGlob1.get_connections (Port.new 5 .Global)).isSome = true ∧
      egGlob1.validNode (Port.new 0 (.Processor 0)).node_index ∧
      (Port.new 0 (.Processor 0)).index <
        (egGlob1.node (Port.new 0 (.Processor 0)).node_index).num_opposite_ports) ∧
    ∃ e : EdgeNotFound,
      egGlob1.insert_edge (Port.new 5 .Global) (Port.new 0 (.Processor 0))
        = (.error (.NotFound e), egGlob1) ∧
      e.from_port = (egGlob1.get_node (Port.new 5 .Global).node_index).map
        (fun itf => (itf.get_connections (Port.new 5 .Global).index).isSome) ∧
      e.to_port = (egGlob1.get_node (Port.new 0 (.Processor 0)).node_index).map
        (fun itf =>
          decide ((Port.new 0 (.Processor 0)).index < itf.num_opposite_ports)) :=
  ⟨by decide,
   C4_validation_failure egGlob1 (Port.new 5 .Global) (Port.new 0 (.Processor 0))
     (by decide)⟩

/-! ## Dangling cleanup after processor removal (claim C2) -/

/-- C2 evidence: at `egGlob2` (an edge from the global node's port 0 to
processor 0 recorded in the global port set), `remove_processor 0`
succeeds and removes the slot, yet the global interface's port set still
contains a `Port` whose node is `Processor 0` — the source's cleanup
loop runs over `self.processors.values_mut()` only and never purges the
global interface. -/
theorem C2_remove_processor_misses_global :
    (egGlob2.remove_processor 0).1 = true ∧
    (egGlob2.remove_processor 0).2.get_node (.Processor 0) = none ∧
    Port.new 0 (.Processor 0) ∈
      (egGlob2.remove_processor 0).2.connections (Port.new 0 .Global) := by
  decide

/-! ## Slot stability (claim C3) -/

/-- Removing slot 1 of `egTwoR0` (slots: 0 empty, 1 occupied) succeeds,
but the immediately following insertion reuses slot 0, not slot 1 — the
collection reuses the *lowest* empty slot, which need not be the slot
just removed. -/
theorem C3_reuse_counterexample :
    (egTwoR0.remove_processor 1).1 = true ∧
    ((egTwoR0.remove_processor 1).2.insert_processor 0 0).1 = 0 ∧
    (0 : Nat) ≠ 1 := by
  decide

/-- Characterisation of `first_empty_slot_from(0)` on the slot-list
model: a `some i` answer is the lowest empty slot, a `none` answer means
no empty slot exists. -/
theorem first_empty_spec (T : Type) (l : List (Option T)) :
    (∀ i, StableVec.first_empty_slot_from0 l = some i →
      l[i]? = some none ∧ ∀ j < i, l[j]? ≠ some none) ∧
    (StableVec.first_empty_slot_from0 l = none →
      ∀ j : Nat, l[j]? ≠ some none) := by
  constructor
  · intro i h
    rw [StableVec.first_empty_slot_from0, List.findIdx?_eq_some_iff_getElem]
      at h
    obtain ⟨hlt, hnone, hmin⟩ := h
    constructor
    · rw [List.getElem?_eq_some]
      exact ⟨hlt, Option.isNone_iff_eq_none.mp hnone⟩
    · intro j hj hcon
      rw [List.getElem?_eq_some] at hcon
      obtain ⟨hjl, hje⟩ := hcon
      exact hmin j hj (by simp [hje])
  · intro h j hcon
    rw [StableVec.first_empty_slot_from0, List.findIdx?_eq_none_iff] at h
    have := h none (List.getElem?_mem hcon)
    simp at this

/-- Effect of a successful `remove_processor` on the slot list: the
call reports success, empties exactly slot `k` and maps the purge over
the remaining slots, never shifting an index. -/
theorem remove_processor_spec (g : AudioGraphIo) (k : Nat)
    (hk : (g.processors.get k).isSome = true) :
    (g.remove_processor k).1 = true ∧
    (g.remove_processor k).2.processors[k]? = some none ∧
    (g.remove_processor k).2.processors.length = g.processors.length ∧
    ∀ j : Nat, j ≠ k →
      (g.remove_processor k).2.processors[j]?
        = Option.map (Option.map fun itf => itf.purge (.Processor k))
            g.processors[j]? := by
  rw [StableVec.get, Option.isSome_iff_exists] at hk
  obtain ⟨itf, hitf⟩ := hk
  have hjoin : g.processors[k]? = some (some itf) := by
    cases hx : g.processors[k]? with
    | none => simp [hx] at hitf
    | some o =>
      cases o with
      | none => simp [hx] at hitf
      | some itf0 => simp [hx] at hitf; simp [hitf]
  have hklt : k < g.processors.length :=
    (List.getElem?_eq_some.mp hjoin).1
  have hrm : g.processors.remove k
      = (some itf, g.processors.set k none) := by
    simp [StableVec.remove, StableVec.get, hjoin]
  refine ⟨?_, ?_, ?_, ?_⟩
  · simp [AudioGraphIo.remove_processor, hrm]
  · simp only [AudioGraphIo.remove_processor, hrm]
    rw [List.getElem?_map, List.getElem?_set_eq_of_lt _ hklt]
    rfl
  · simp [AudioGraphIo.remove_processor, hrm]
  · intro j hj
    simp only [AudioGraphIo.remove_processor, hrm]
    rw [List.getElem?_map, List.getElem?_set_ne (fun hc => hj hc.symm)]

/-- C3 (amended): `insert_processor` (via `insert_at_next_empty_slot`)
returns the *lowest* currently-empty slot, appending a fresh slot only
when no slot is empty, and puts the fresh interface there;
`remove_processor k` empties exactly slot `k`, leaving every other
slot's index and occupancy unchanged; consequently inserting right
after removing slot `k` reuses an existing empty slot no higher than
`k` — slot `k` itself when no lower slot is empty — and does not extend
the collection. -/
theorem C3_slot_stability :
    (∀ (g : AudioGraphIo) (np nop : Nat),
      ((g.insert_processor np nop).1 < g.processors.length ∧
        g.processors[(g.insert_processor np nop).1]? = some none ∧
        ∀ j < (g.insert_processor np nop).1, g.processors[j]? ≠ some none) ∨
      ((g.insert_processor np nop).1 = g.processors.length ∧
        ∀ j : Nat, g.processors[j]? ≠ some none)) ∧
    (∀ (g : AudioGraphIo) (np nop : Nat),
      (g.insert_processor np nop).2.processors.get (g.insert_processor np nop).1
        = some (Interface.with_io_config np nop)) ∧
    (∀ (g : AudioGraphIo) (k : Nat), (g.processors.get k).isSome = true →
      (g.remove_processor k).1 = true ∧
      (g.remove_processor k).2.processors.get k = none ∧
      (g.remove_processor k).2.processors.length = g.processors.length ∧
      ∀ j : Nat, j ≠ k →
        ((g.remove_processor k).2.processors.get j).isSome
          = (g.processors.get j).isSome) ∧
    (∀ (g : AudioGraphIo) (k np nop : Nat),
      (g.processors.get k).isSome = true →
      ((g.remove_processor k).2.insert_processor np nop).1 ≤ k ∧
      ((g.remove_processor k).2.insert_processor np nop).2.processors.length
        = g.processors.length) := by
  refine ⟨?_, ?_, ?_, ?_⟩
  · intro g np nop
    cases h : StableVec.first_empty_slot_from0 g.processors with
    | some i =>
      obtain ⟨hi, hmin⟩ := (first_empty_spec Interface g.processors).1 i h
      left
      have h1 : (g.insert_processor np nop).1 = i := by
        simp [AudioGraphIo.insert_processor, insert_at_next_empty_slot, h]
      rw [h1]
      exact ⟨(List.getElem?_eq_some.mp hi).1, hi, hmin⟩
    | none =>
      right
      have h1 : (g.insert_processor np nop).1 = g.processors.length := by
        simp [AudioGraphIo.insert_processor, insert_at_next_empty_slot, h]
      exact ⟨h1, (first_empty_spec Interface g.processors).2 h⟩
  · intro g np nop
    cases h : StableVec.first_empty_slot_from0 g.processors with
    | some i =>
      obtain ⟨hi, hmin⟩ := (first_empty_spec Interface g.processors).1 i h
      have hlt := (List.getElem?_eq_some.mp hi).1
      simp only [AudioGraphIo.insert_processor, insert_at_next_empty_slot, h,
        StableVec.insertAt, StableVec.get]
      rw [List.getElem?_set_eq_of_lt _ hlt]
      rfl
    | none =>
      simp only [AudioGraphIo.insert_processor, insert_at_next_empty_slot, h,
        StableVec.get]
      rw [List.getElem?_concat_length]
      rfl
  · intro g k hk
    obtain ⟨h1, h2, h3, h4⟩ := remove_processor_spec g k hk
    refine ⟨h1, by simp [StableVec.get, h2], h3, ?_⟩
    intro j hj
    rw [StableVec.get, StableVec.get, h4 j hj]
    cases hx : g.processors[j]? with
    | none => simp
    | some o => cases o <;> simp
  · intro g k np nop hk
    obtain ⟨h1, h2, h3, h4⟩ := remove_processor_spec g k hk
    have hfe : ∃ i, StableVec.first_empty_slot_from0
        (g.remove_processor k).2.processors = some i := by
      cases hx : StableVec.first_empty_slot_from0
          (g.remove_processor k).2.processors with
      | some i => exact ⟨i, rfl⟩
      | none =>
        exact absurd h2
          ((first_empty_spec Interface (g.remove_processor k).2.processors).2 hx k)
    obtain ⟨i, hi⟩ := hfe
    obtain ⟨hie, himin⟩ :=
      (first_empty_spec Interface (g.remove_processor k).2.processors).1 i hi
    have hik : i ≤ k := by
      by_contra hc
      exact himin k (Nat.lt_of_not_le hc) h2
    constructor
    · have : ((g.remove_processor k).2.insert_processor np nop).1 = i := by
        simp [AudioGraphIo.insert_processor, insert_at_next_empty_slot, hi]
      rw [this]; exact hik
    · have : ((g.remove_processor k).2.insert_processor np nop).2.processors
          = (g.remove_processor k).2.processors.set i
              (some (Interface.with_io_config np nop)) := by
        simp [AudioGraphIo.insert_processor, insert_at_next_empty_slot, hi,
          StableVec.insertAt]
      rw [this, List.length_set, h3]

/-- Witness for C3 at `egTwo` (slots 0 and 1 occupied): removing slot 0
succeeds and the following insertion lands in slot 0 without extending
the collection. -/
theorem C3_slot_stability_witness :
    (egTwo.processors.get 0).isSome = true ∧
    ((egTwo.remove_processor 0).2.insert_processor 3 4).1 ≤ 0 ∧
    ((egTwo.remove_processor 0).2.insert_processor 3 4).2.processors.length
      = egTwo.processors.length :=
  ⟨by decide, C3_slot_stability.2.2.2 egTwo 0 3 4 (by decide)⟩

/-! ## DFS (`connected`) correctness -/

/-- Iterating a port set in sorted order ranges over exactly its
elements. -/
theorem mem_portSort (s : Ports) (p : Port) : p ∈ portSort s ↔ p ∈ s := by
  obtain ⟨l, hl⟩ := Quotient.exists_rep s.val
  have h1 : portSort s = List.insertionSort (· ≤ ·) l := by
    unfold portSort
    rw [← hl]
    rfl
  rw [h1, (List.perm_insertionSort (· ≤ ·) l).mem_iff, Finset.mem_def, ← hl]
  rfl

/-- The flattened neighbour iteration of `connected` ranges over exactly
the ports stored in the node's port sets. -/
theorem mem_neighborPorts (g : AudioGraphIo) (n : NodeIndex) (p : Port) :
    p ∈ g.neighborPorts n ↔ ∃ s ∈ (g.node n).ports, p ∈ s := by
  simp only [AudioGraphIo.neighborPorts, List.mem_flatten, List.mem_map]
  constructor
  · rintro ⟨l, ⟨s, hs, rfl⟩, hp⟩
    exact ⟨s, hs, (mem_portSort s p).mp hp⟩
  · rintro ⟨s, hs, hp⟩
    exact ⟨portSort s, ⟨s, hs, rfl⟩, (mem_portSort s p).mpr hp⟩

/-- The one-hop relation in terms of the neighbour iteration. -/
theorem step_iff_neighborPorts (g : AudioGraphIo) (a b : NodeIndex) :
    g.step a b ↔ ∃ p ∈ g.neighborPorts a, p.node_index = b := by
  simp only [AudioGraphIo.step]
  constructor
  · rintro ⟨s, hs, p, hp, rfl⟩
    exact ⟨p, (mem_neighborPorts g a p).mpr ⟨s, hs, hp⟩, rfl⟩
  · rintro ⟨p, hp, rfl⟩
    obtain ⟨s, hs, hps⟩ := (mem_neighborPorts g a p).mp hp
    exact ⟨s, hs, p, hps, rfl⟩

/-- Existing nodes belong to the finite universe `validNodes`. -/
theorem validNode_mem_validNodes (g : AudioGraphIo) (n : NodeIndex)
    (h : g.validNode n) : n ∈ g.validNodes := by
  cases n with
  | Global => simp [AudioGraphIo.validNodes]
  | Processor i =>
    simp only [AudioGraphIo.validNodes, Finset.mem_insert, Finset.mem_image,
      Finset.mem_range]
    refine Or.inr ⟨i, ?_, rfl⟩
    rw [AudioGraphIo.validNode, AudioGraphIo.get_node, StableVec.get,
      Option.isSome_iff_exists] at h
    obtain ⟨itf, hitf⟩ := h
    cases hx : g.processors[i]? with
    | none => simp [hx] at hitf
    | some o => exact (List.getElem?_eq_some.mp hx).1

/-- The node universe has at most one entry per processor slot plus the
global node. -/
theorem card_validNodes_le (g : AudioGraphIo) :
    g.validNodes.card ≤ g.processors.length + 1 := by
  calc g.validNodes.card
      ≤ ((Finset.range g.processors.length).image NodeIndex.Processor).card + 1 :=
        Finset.card_insert_le _ _
    _ ≤ (Finset.range g.processors.length).card + 1 :=
        Nat.add_le_add_right (Finset.card_image_le) 1
    _ = g.processors.length + 1 := by rw [Finset.card_range]

/-- A well-formed graph only ever hands the DFS valid neighbour
nodes. -/
theorem neighbor_mem_validNodes (g : AudioGraphIo) (hwf : g.WF)
    (x : NodeIndex) (p : Port) (hp : p ∈ g.neighborPorts x) :
    p.node_index ∈ g.validNodes := by
  obtain ⟨s, hs, hps⟩ := (mem_neighborPorts g x p).mp hp
  exact validNode_mem_validNodes g _ (hwf x s hs p hps)

/-- The `visited` set only grows through a `scanPorts` sweep. -/
theorem scanPorts_mono (f : NodeIndex → Finset NodeIndex → Bool × Finset NodeIndex)
    (hmono : ∀ u v, v ⊆ (f u v).2) :
    ∀ (l : List Port) (v : Finset NodeIndex), v ⊆ (scanPorts f l v).2 := by
  intro l
  induction l with
  | nil => intro v; simp [scanPorts]
  | cons p ps ih =>
    intro v
    simp only [scanPorts]
    by_cases h : (f p.node_index v).1
    · simpa [h] using hmono p.node_index v
    · simpa [h] using (hmono p.node_index v).trans (ih (f p.node_index v).2)

/-- The `visited` set only grows through the DFS. -/
theorem connectedGo_mono (g : AudioGraphIo) (t : NodeIndex) :
    ∀ (fuel : Nat) (u : NodeIndex) (v : Finset NodeIndex),
      v ⊆ (g.connectedGo t fuel u v).2 := by
  intro fuel
  induction fuel with
  | zero => intro u v; simp [AudioGraphIo.connectedGo]
  | succ n ih =>
    intro u v
    simp only [AudioGraphIo.connectedGo]
    by_cases h1 : u = t
    · simp [h1]
    · by_cases h2 : u ∈ v
      · simp [h1, h2]
      · simp only [h1, h2, if_false, if_neg]
        exact (Finset.subset_insert u v).trans
          (scanPorts_mono _ (ih) _ (insert u v))

/-- A `true` sweep answer comes from a `true` answer of `f` on one of
the listed ports (at some intermediate `visited` set). -/
theorem scanPorts_true_exists
    (f : NodeIndex → Finset NodeIndex → Bool × Finset NodeIndex) :
    ∀ (l : List Port) (v : Finset NodeIndex), (scanPorts f l v).1 = true →
      ∃ p ∈ l, ∃ w, (f p.node_index w).1 = true := by
  intro l
  induction l with
  | nil => intro v h; simp [scanPorts] at h
  | cons p ps ih =>
    intro v h
    simp only [scanPorts] at h
    by_cases h1 : (f p.node_index v).1
    · exact ⟨p, List.mem_cons_self p ps, v, h1⟩
    · simp only [h1, if_neg, if_false] at h
      obtain ⟨q, hq, w, hw⟩ := ih _ h
      exact ⟨q, List.mem_cons_of_mem p hq, w, hw⟩

/-- Soundness of the DFS: a `true` answer exhibits a directed path. -/
theorem connectedGo_sound (g : AudioGraphIo) (t : NodeIndex) :
    ∀ (fuel : Nat) (u : NodeIndex) (v : Finset NodeIndex),
      (g.connectedGo t fuel u v).1 = true → g.Reaches u t := by
  intro fuel
  induction fuel with
  | zero => intro u v h; simp [AudioGraphIo.connectedGo] at h
  | succ n ih =>
    intro u v h
    simp only [AudioGraphIo.connectedGo] at h
    by_cases h1 : u = t
    · exact h1 ▸ Relation.ReflTransGen.refl
    · by_cases h2 : u ∈ v
      · simp [h1, h2] at h
      · simp only [h1, h2, if_false, if_neg] at h
        obtain ⟨p, hp, w, hw⟩ := scanPorts_true_exists _ _ _ h
        exact Relation.ReflTransGen.head
          ((step_iff_neighborPorts g u p.node_index).mpr ⟨p, hp, rfl⟩)
          (ih p.node_index w hw)

/-- Closure property of a fully failed `scanPorts` sweep, parametrized
by the behaviour of the per-node call `f`: the sweep visits every
listed port's node, never marks the target, and every newly marked node
has all its neighbours marked. -/
theorem scanPorts_false_spec (g : AudioGraphIo) (t : NodeIndex)
    (f : NodeIndex → Finset NodeIndex → Bool × Finset NodeIndex)
    (A : Finset NodeIndex) (good : Finset NodeIndex → Prop)
    (hgood : ∀ v w, good v → v ⊆ w → good w)
    (hmono : ∀ u v, v ⊆ (f u v).2)
    (hf : ∀ u v, u ∈ A → good v → (f u v).1 = false →
      u ∈ (f u v).2 ∧ (t ∉ v → t ∉ (f u v).2) ∧
      ∀ x ∈ (f u v).2, x ∉ v →
        ∀ p ∈ g.neighborPorts x, p.node_index ∈ (f u v).2) :
    ∀ (l : List Port) (v : Finset NodeIndex),
      (∀ p ∈ l, p.node_index ∈ A) → good v →
      (scanPorts f l v).1 = false →
      (∀ p ∈ l, p.node_index ∈ (scanPorts f l v).2) ∧
      (t ∉ v → t ∉ (scanPorts f l v).2) ∧
      ∀ x ∈ (scanPorts f l v).2, x ∉ v →
        ∀ p ∈ g.neighborPorts x, p.node_index ∈ (scanPorts f l v).2 := by
  intro l
  induction l with
  | nil =>
    intro v _ _ _
    refine ⟨by simp, fun h => by simpa [scanPorts] using h, ?_⟩
    intro x hx hxv
    simp only [scanPorts] at hx
    exact absurd hx hxv
  | cons p ps ih =>
    intro v hA hgoodv hfalse
    simp only [scanPorts] at hfalse ⊢
    by_cases h1 : (f p.node_index v).1
    · simp [h1] at hfalse
    · simp only [h1, if_neg, if_false] at hfalse ⊢
      have hpA : p.node_index ∈ A := hA p (List.mem_cons_self p ps)
      obtain ⟨hu, ht, hcl⟩ := hf p.node_index v hpA hgoodv (by simpa using h1)
      have hsub1 : v ⊆ (f p.node_index v).2 := hmono p.node_index v
      have hgood2 : good (f p.node_index v).2 := hgood v _ hgoodv hsub1
      have hA2 : ∀ q ∈ ps, q.node_index ∈ A := fun q hq =>
        hA q (List.mem_cons_of_mem p hq)
      obtain ⟨hvisit, ht2, hcl2⟩ := ih (f p.node_index v).2 hA2 hgood2 hfalse
      have hsub2 : (f p.node_index v).2 ⊆ (scanPorts f ps (f p.node_index v).2).2 :=
        scanPorts_mono f hmono ps (f p.node_index v).2
      refine ⟨?_, ?_, ?_⟩
      · intro q hq
        rcases List.mem_cons.mp hq with rfl | hq2
        · exact hsub2 hu
        · exact hvisit q hq2
      · intro htv
        exact ht2 (fun hc => ht htv hc)
      · intro x hx hxv
        by_cases hx2 : x ∈ (f p.node_index v).2
        · intro q hq
          exact hsub2 (hcl x hx2 hxv q hq)
        · exact hcl2 x hx hx2

/-- Closure property of a failed DFS: with enough fuel (one unit per
unvisited valid node, plus one), a `false` answer leaves behind a
visited set that contains the start node, excludes the target, and is
closed under the neighbour relation on its new elements. -/
theorem connectedGo_false_spec (g : AudioGraphIo) (t : NodeIndex) (hwf : g.WF) :
    ∀ (fuel : Nat) (u : NodeIndex) (v : Finset NodeIndex),
      u ∈ g.validNodes →
      (g.validNodes \ v).card + 1 ≤ fuel →
      (g.connectedGo t fuel u v).1 = false →
      u ∈ (g.connectedGo t fuel u v).2 ∧
      (t ∉ v → t ∉ (g.connectedGo t fuel u v).2) ∧
      ∀ x ∈ (g.connectedGo t fuel u v).2, x ∉ v →
        ∀ p ∈ g.neighborPorts x, p.node_index ∈ (g.connectedGo t fuel u v).2 := by
  intro fuel
  induction fuel with
  | zero =>
    intro u v hu hfuel hfalse
    exact absurd hfuel (by omega)
  | succ n ih =>
    intro u v hu hfuel hfalse
    simp only [AudioGraphIo.connectedGo] at hfalse ⊢
    by_cases h1 : u = t
    · simp [h1] at hfalse
    · by_cases h2 : u ∈ v
      · rw [if_neg h1, if_pos h2]
        exact ⟨h2, fun h => h, fun x hx hxv => absurd hx hxv⟩
      · have huv : u ∈ g.validNodes \ v := Finset.mem_sdiff.mpr ⟨hu, h2⟩
        have hcard : 0 < (g.validNodes \ v).card :=
          Finset.card_pos.mpr ⟨u, huv⟩
        have hgoodins : (g.validNodes \ insert u v).card + 1 ≤ n := by
          have he : g.validNodes \ insert u v = (g.validNodes \ v).erase u :=
            Finset.sdiff_insert g.validNodes v u
          rw [he, Finset.card_erase_of_mem huv]
          omega
        have hscan := scanPorts_false_spec g t (g.connectedGo t n)
          g.validNodes (fun w => (g.validNodes \ w).card + 1 ≤ n)
          (fun v1 w1 hg hsub => by
            have : (g.validNodes \ w1).card ≤ (g.validNodes \ v1).card :=
              Finset.card_le_card
                (Finset.sdiff_subset_sdiff (Finset.Subset.refl _) hsub)
            omega)
          (connectedGo_mono g t n)
          (fun u1 v1 hu1 hg1 hf1 => ih u1 v1 hu1 hg1 hf1)
          (g.neighborPorts u) (insert u v)
          (fun p hp => neighbor_mem_validNodes g hwf u p hp)
          hgoodins
        simp only [h1, h2, if_false, if_neg, ite_false] at hfalse ⊢
        obtain ⟨hvisit, ht, hcl⟩ := hscan hfalse
        have hmonoscan :
            insert u v ⊆ (scanPorts (g.connectedGo t n)
              (g.neighborPorts u) (insert u v)).2 :=
          scanPorts_mono _ (connectedGo_mono g t n) _ _
        refine ⟨hmonoscan (Finset.mem_insert_self u v), ?_, ?_⟩
        · intro htv
          refine ht ?_
          simp only [Finset.mem_insert]
          rintro (rfl | hc)
          · exact h1 rfl
          · exact htv hc
        · intro x hx hxv q hq
          by_cases hxu : x = u
          · exact hvisit q (hxu ▸ hq)
          · exact hcl x hx (by simp [Finset.mem_insert, hxu, hxv]) q hq

/-- Completeness of `connected` on well-formed graphs: a `false` answer
means there is no directed path. -/
theorem connected_false_not_reaches (g : AudioGraphIo) (u t : NodeIndex)
    (hwf : g.WF) (hu : u ∈ g.validNodes) (h : g.connected u t = false) :
    ¬g.Reaches u t := by
  intro hreach
  have hfuel : (g.validNodes \ ∅).card + 1 ≤ g.fuelBound := by
    rw [Finset.sdiff_empty, AudioGraphIo.fuelBound]
    have := card_validNodes_le g
    omega
  rw [AudioGraphIo.connected] at h
  obtain ⟨hmem, ht, hcl⟩ :=
    connectedGo_false_spec g t hwf g.fuelBound u ∅ hu hfuel h
  have htr : t ∉ (g.connectedGo t g.fuelBound u ∅).2 :=
    ht (Finset.not_mem_empty t)
  have hwalk : ∀ a b, g.Reaches a b →
      a ∈ (g.connectedGo t g.fuelBound u ∅).2 →
      b ∈ (g.connectedGo t g.fuelBound u ∅).2 := by
    intro a b hab
    induction hab with
    | refl => exact id
    | tail hac hstep ih =>
      intro ha
      rename_i c d
      obtain ⟨p, hp, hpd⟩ := (step_iff_neighborPorts g c d).mp hstep
      exact hpd ▸ hcl c (ih ha) (Finset.not_mem_empty c) p hp
  exact htr (hwalk u t hreach hmem)

/-- Soundness of `connected`: a `true` answer exhibits a path. -/
theorem connected_true_reaches (g : AudioGraphIo) (u t : NodeIndex)
    (h : g.connected u t = true) : g.Reaches u t :=
  connectedGo_sound g t g.fuelBound u ∅ h

/-! ## Adding one edge to a relation: path decomposition -/

/-- Any path in a relation extended by the single pair `(F, Tt)` either
already existed or passes through the new pair. -/
theorem reflTransGen_union_single {α : Type} (r : α → α → Prop) (F Tt : α) :
    ∀ a b, Relation.ReflTransGen (fun x y => r x y ∨ (x = F ∧ y = Tt)) a b →
      Relation.ReflTransGen r a b ∨
      (Relation.ReflTransGen r a F ∧ Relation.ReflTransGen r Tt b) := by
  intro a b hab
  induction hab with
  | refl => exact Or.inl Relation.ReflTransGen.refl
  | tail hac hstep ih =>
    rcases hstep with hr | ⟨rfl, rfl⟩
    · rcases ih with h1 | ⟨h1, h2⟩
      · exact Or.inl (h1.tail hr)
      · exact Or.inr ⟨h1, h2.tail hr⟩
    · rcases ih with h1 | ⟨h1, h2⟩
      · exact Or.inr ⟨h1, Relation.ReflTransGen.refl⟩
      · exact Or.inr ⟨h1, Relation.ReflTransGen.refl⟩

/-- Any nonempty cyclic path in a relation extended by the single pair
`(F, Tt)` yields a cycle of the base relation or a path from `Tt` back
to `F` in the extended relation. -/
theorem transGen_union_single {α : Type} (r : α → α → Prop) (F Tt : α) :
    ∀ a b, Relation.TransGen (fun x y => r x y ∨ (x = F ∧ y = Tt)) a b →
      Relation.TransGen r a b ∨
      (Relation.ReflTransGen (fun x y => r x y ∨ (x = F ∧ y = Tt)) Tt b ∧
       Relation.ReflTransGen (fun x y => r x y ∨ (x = F ∧ y = Tt)) a F) := by
  intro a b hab
  induction hab with
  | single hstep =>
    rcases hstep with hr | ⟨rfl, rfl⟩
    · exact Or.inl (Relation.TransGen.single hr)
    · exact Or.inr ⟨Relation.ReflTransGen.refl, Relation.ReflTransGen.refl⟩
  | tail hac hstep ih =>
    rcases hstep with hr | ⟨rfl, rfl⟩
    · rcases ih with h1 | ⟨h1, h2⟩
      · exact Or.inl (h1.tail hr)
      · exact Or.inr ⟨h1.tail (Or.inl hr), h2⟩
    · rcases ih with h1 | ⟨h1, h2⟩
      · exact Or.inr ⟨Relation.ReflTransGen.refl,
          (Relation.TransGen.to_reflTransGen h1).mono fun x y h => Or.inl h⟩
      · exact Or.inr ⟨Relation.ReflTransGen.refl, h2⟩

/-! ## Structure of `setConnections` and `insert_edge` -/

/-- Writing back an interface at an existing node stores it there. -/
theorem setNode_node_eq (g : AudioGraphIo) (n : NodeIndex) (itf : Interface)
    (h : g.validNode n) : (g.setNode n itf).node n = itf := by
  cases n with
  | Global => rfl
  | Processor i =>
    rw [AudioGraphIo.validNode, AudioGraphIo.get_node,
      Option.isSome_iff_exists] at h
    obtain ⟨old, hold⟩ := h
    have hlt : i < g.processors.length := by
      rw [StableVec.get] at hold
      cases hx : g.processors[i]? with
      | none => simp [hx] at hold
      | some o => exact (List.getElem?_eq_some.mp hx).1
    simp only [AudioGraphIo.setNode, hold]
    simp only [AudioGraphIo.node, AudioGraphIo.get_node, StableVec.get]
    rw [List.getElem?_set_eq_of_lt _ hlt]
    rfl

/-- Writing back an interface at node `n` leaves every other node's
interface unchanged. -/
theorem setNode_node_ne (g : AudioGraphIo) (n : NodeIndex) (itf : Interface)
    (m : NodeIndex) (h : m ≠ n) : (g.setNode n itf).node m = g.node m := by
  cases n with
  | Global =>
    cases m with
    | Global => exact absurd rfl h
    | Processor j => rfl
  | Processor i =>
    simp only [AudioGraphIo.setNode]
    cases hx : g.processors.get i with
    | none => rfl
    | some old =>
      cases m with
      | Global => rfl
      | Processor j =>
        have hji : j ≠ i := fun hc => h (by rw [hc])
        simp only [AudioGraphIo.node, AudioGraphIo.get_node, StableVec.get]
        rw [List.getElem?_set_ne (fun hc => hji hc.symm)]

/-- Writing back an interface never changes which nodes exist. -/
theorem setNode_get_node_isSome (g : AudioGraphIo) (n : NodeIndex)
    (itf : Interface) (m : NodeIndex) :
    ((g.setNode n itf).get_node m).isSome = (g.get_node m).isSome := by
  cases n with
  | Global => cases m <;> rfl
  | Processor i =>
    simp only [AudioGraphIo.setNode]
    cases hx : g.processors.get i with
    | none => rfl
    | some old =>
      cases m with
      | Global => rfl
      | Processor j =>
        by_cases hji : j = i
        · subst hji
          have hlt : j < g.processors.length := by
            rw [StableVec.get] at hx
            cases hy : g.processors[j]? with
            | none => simp [hy] at hx
            | some o => exact (List.getElem?_eq_some.mp hy).1
          simp only [AudioGraphIo.get_node, StableVec.get]
          rw [List.getElem?_set_eq_of_lt _ hlt]
          rw [StableVec.get] at hx
          cases hy : g.processors[j]? with
          | none => simp [hy] at hx
          | some o =>
            cases o with
            | none => simp [hy] at hx
            | some w => simp
        · simp only [AudioGraphIo.get_node, StableVec.get]
          rw [List.getElem?_set_ne (fun hc => hji hc.symm)]

/-- A successful `from`-endpoint validation pins down the stored set:
the node exists, the index is in range, and `connections` is the stored
port set. -/
theorem get_connections_isSome_spec (g : AudioGraphIo) (fp : Port)
    (h : (g.get_connections fp).isSome = true) :
    g.validNode fp.node_index ∧
    (g.node fp.node_index).ports[fp.index]? = some (g.connections fp) := by
  rw [AudioGraphIo.get_connections] at h
  cases hn : g.get_node fp.node_index with
  | none => rw [hn] at h; simp at h
  | some itf =>
    rw [hn] at h
    simp only [Option.some_bind] at h
    rw [Interface.get_connections] at h
    cases hp : itf.ports[fp.index]? with
    | none => rw [hp] at h; simp at h
    | some s =>
      constructor
      · rw [AudioGraphIo.validNode, hn]; rfl
      · have hnode : g.node fp.node_index = itf := by
          rw [AudioGraphIo.node, hn]; rfl
        have hconn : g.connections fp = s := by
          rw [AudioGraphIo.connections, AudioGraphIo.get_connections, hn]
          simp [Interface.get_connections, hp]
        rw [hnode, hconn, hp]

/-- Writing a slot back with its current content is a no-op. -/
theorem list_set_getElem_self {α : Type} (l : List α) (i : Nat) (a : α)
    (h : l[i]? = some a) : l.set i a = l := by
  apply List.ext_getElem?
  intro j
  rw [List.getElem?_set]
  by_cases hij : i = j
  · subst hij
    rw [if_pos rfl, if_pos (List.getElem?_eq_some.mp h).1, h]
  · rw [if_neg hij]

/-- The three structural facts about `setConnections` at a resolvable
`from` endpoint: the updated interface, untouched other nodes, and
preserved node existence. -/
theorem setConnections_props (g : AudioGraphIo) (fp : Port) (S : Ports)
    (h : (g.get_connections fp).isSome = true) :
    ((g.setConnections fp S).node fp.node_index).ports
      = (g.node fp.node_index).ports.set fp.index S ∧
    ((g.setConnections fp S).node fp.node_index).num_opposite_ports
      = (g.node fp.node_index).num_opposite_ports ∧
    (∀ m, m ≠ fp.node_index → (g.setConnections fp S).node m = g.node m) ∧
    ∀ m, ((g.setConnections fp S).get_node m).isSome
      = (g.get_node m).isSome := by
  obtain ⟨hv, _⟩ := get_connections_isSome_spec g fp h
  have heq := setNode_node_eq g fp.node_index
    ((g.node fp.node_index).setPortSet fp.index S) hv
  refine ⟨?_, ?_, ?_, ?_⟩
  · rw [AudioGraphIo.setConnections, heq]; rfl
  · rw [AudioGraphIo.setConnections, heq]; rfl
  · intro m hm
    rw [AudioGraphIo.setConnections, setNode_node_ne _ _ _ _ hm]
  · intro m
    rw [AudioGraphIo.setConnections, setNode_get_node_isSome]

/-- Rewriting a no-op write: storing back the currently stored port set
leaves the graph unchanged. -/
theorem setConnections_self (g : AudioGraphIo) (fp : Port)
    (h : (g.get_connections fp).isSome = true) :
    g.setConnections fp (g.connections fp) = g := by
  obtain ⟨hv, hidx⟩ := get_connections_isSome_spec g fp h
  rw [AudioGraphIo.setConnections]
  have hset : (g.node fp.node_index).setPortSet fp.index (g.connections fp)
      = g.node fp.node_index := by
    rw [Interface.setPortSet, list_set_getElem_self _ _ _ hidx]
  rw [hset]
  cases hn : fp.node_index with
  | Global =>
    rw [AudioGraphIo.setNode]
    have : g.node NodeIndex.Global = g.global := rfl
    rw [this]
  | Processor i =>
    rw [AudioGraphIo.validNode, hn, AudioGraphIo.get_node,
      Option.isSome_iff_exists] at hv
    obtain ⟨itf, hitf⟩ := hv
    simp only [AudioGraphIo.setNode, hitf]
    have hnode : g.node (NodeIndex.Processor i) = itf := by
      simp [AudioGraphIo.node, AudioGraphIo.get_node, hitf]
    rw [hnode]
    have hproc : g.processors.set i (some itf) = g.processors := by
      apply list_set_getElem_self
      rw [StableVec.get] at hitf
      cases hx : g.processors[i]? with
      | none => simp [hx] at hitf
      | some o =>
        cases o with
        | none => simp [hx] at hitf
        | some w => simp [hx] at hitf; rw [hitf]
    cases g with
    | mk procs glob =>
      simp only at hproc ⊢
      rw [hproc]

/-- The one-hop relation after inserting edge `fp → tp`: exactly the old
hops plus the new hop from `fp`'s node to `tp`'s node. -/
theorem step_insert_edge_iff (g : AudioGraphIo) (fp tp : Port)
    (h : (g.get_connections fp).isSome = true) :
    ∀ a b, (g.setConnections fp (insert tp (g.connections fp))).step a b ↔
      (g.step a b ∨ (a = fp.node_index ∧ b = tp.node_index)) := by
  obtain ⟨hv, hidx⟩ := get_connections_isSome_spec g fp h
  have hlt : fp.index < (g.node fp.node_index).ports.length :=
    (List.getElem?_eq_some.mp hidx).1
  obtain ⟨hports, _, hne, _⟩ :=
    setConnections_props g fp (insert tp (g.connections fp)) h
  intro a b
  by_cases ha : a = fp.node_index
  · subst ha
    constructor
    · rintro ⟨s, hs, p, hp, rfl⟩
      rw [hports] at hs
      obtain ⟨k, hk⟩ := List.mem_iff_getElem?.mp hs
      rw [List.getElem?_set] at hk
      by_cases hki : fp.index = k
      · rw [if_pos hki, if_pos hlt] at hk
        have hseq : s = insert tp (g.connections fp) := by
          injection hk with hh
          exact hh.symm
        subst hseq
        rcases Finset.mem_insert.mp hp with rfl | hmem
        · exact Or.inr ⟨rfl, rfl⟩
        · exact Or.inl ⟨g.connections fp, List.getElem?_mem hidx, p, hmem, rfl⟩
      · rw [if_neg hki] at hk
        exact Or.inl ⟨s, List.getElem?_mem hk, p, hp, rfl⟩
    · rintro (⟨s, hs, p, hp, rfl⟩ | ⟨_, rfl⟩)
      · obtain ⟨k, hk⟩ := List.mem_iff_getElem?.mp hs
        by_cases hki : k = fp.index
        · subst hki
          rw [hidx] at hk
          have hseq : s = g.connections fp := by
            injection hk with hh
            exact hh.symm
          refine ⟨insert tp (g.connections fp), ?_, p, ?_, rfl⟩
          · rw [hports]
            refine List.getElem?_mem (n := fp.index) ?_
            rw [List.getElem?_set, if_pos rfl, if_pos hlt]
          · exact Finset.mem_insert_of_mem (hseq ▸ hp)
        · refine ⟨s, ?_, p, hp, rfl⟩
          rw [hports]
          refine List.getElem?_mem (n := k) ?_
          rw [List.getElem?_set, if_neg (fun hc => hki hc.symm), hk]
      · refine ⟨insert tp (g.connections fp), ?_, tp, Finset.mem_insert_self _ _,
          rfl⟩
        rw [hports]
        refine List.getElem?_mem (n := fp.index) ?_
        rw [List.getElem?_set, if_pos rfl, if_pos hlt]
  · rw [AudioGraphIo.step, AudioGraphIo.step, hne a ha]
    constructor
    · exact fun hs => Or.inl hs
    · rintro (hs | ⟨hc, _⟩)
      · exact hs
      · exact absurd hc ha

/-- At an existing node, `get_node` returns exactly the totalized
interface. -/
theorem get_node_eq_some_node (g : AudioGraphIo) (n : NodeIndex)
    (h : g.validNode n) : g.get_node n = some (g.node n) := by
  rw [AudioGraphIo.validNode, Option.isSome_iff_exists] at h
  obtain ⟨itf, hitf⟩ := h
  rw [AudioGraphIo.node, hitf]
  rfl

/-- After writing port set `S` at `fp`, reading `fp`'s connections
returns `S`. -/
theorem connections_setConnections (g : AudioGraphIo) (fp : Port) (S : Ports)
    (h : (g.get_connections fp).isSome = true) :
    (g.setConnections fp S).connections fp = S ∧
    ((g.setConnections fp S).get_connections fp).isSome = true := by
  obtain ⟨hv, hidx⟩ := get_connections_isSome_spec g fp h
  have hlt : fp.index < (g.node fp.node_index).ports.length :=
    (List.getElem?_eq_some.mp hidx).1
  obtain ⟨hports, _, _, hsome⟩ := setConnections_props g fp S h
  have hv2 : (g.setConnections fp S).validNode fp.node_index := by
    rw [AudioGraphIo.validNode, hsome]
    exact hv
  have hget : (g.setConnections fp S).get_connections fp
      = ((g.setConnections fp S).node fp.node_index).ports[fp.index]? := by
    rw [AudioGraphIo.get_connections,
      get_node_eq_some_node _ _ hv2, Option.some_bind, Interface.get_connections]
  have hlook : ((g.setConnections fp S).node fp.node_index).ports[fp.index]?
      = some S := by
    rw [hports, List.getElem?_set, if_pos rfl, if_pos hlt]
  constructor
  · rw [AudioGraphIo.connections, hget, hlook]
    rfl
  · rw [hget, hlook]
    rfl

/-- The validation record built by `insert_edge`/`remove_edge` is not
affected by rewriting the port set stored at `fp`. -/
theorem edgeNotFoundFor_setConnections (g : AudioGraphIo) (fp tp : Port)
    (S : Ports) (h : (g.get_connections fp).isSome = true) :
    (g.setConnections fp S).edgeNotFoundFor fp tp = g.edgeNotFoundFor fp tp := by
  obtain ⟨hv, hidx⟩ := get_connections_isSome_spec g fp h
  have hlt : fp.index < (g.node fp.node_index).ports.length :=
    (List.getElem?_eq_some.mp hidx).1
  obtain ⟨hports, hnum, hne, hsome⟩ := setConnections_props g fp S h
  have hnodeagree : ∀ m, ((g.setConnections fp S).node m).num_opposite_ports
      = (g.node m).num_opposite_ports := by
    intro m
    by_cases hm : m = fp.node_index
    · subst hm; exact hnum
    · rw [hne m hm]
  have hportlen : ∀ m, ((g.setConnections fp S).node m).ports.length
      = (g.node m).ports.length := by
    intro m
    by_cases hm : m = fp.node_index
    · subst hm; rw [hports, List.length_set]
    · rw [hne m hm]
  have hgetnode : ∀ m, ((g.setConnections fp S).get_node m).isSome
      = (g.get_node m).isSome := hsome
  rw [AudioGraphIo.edgeNotFoundFor, AudioGraphIo.edgeNotFoundFor]
  have hfieldgen : ∀ (m : NodeIndex) (f : Interface → Bool),
      (∀ itf1 itf2 : Interface, itf1.ports.length = itf2.ports.length →
        itf1.num_opposite_ports = itf2.num_opposite_ports → f itf1 = f itf2) →
      ((g.setConnections fp S).get_node m).map f = (g.get_node m).map f := by
    intro m f hf
    by_cases hvm : g.validNode m
    · have h1 := get_node_eq_some_node g m hvm
      have hvm2 : (g.setConnections fp S).validNode m := by
        rw [AudioGraphIo.validNode, hgetnode m]; exact hvm
      have h2 := get_node_eq_some_node (g.setConnections fp S) m hvm2
      rw [h1, h2]
      show some (f ((g.setConnections fp S).node m)) = some (f (g.node m))
      exact congrArg some (hf _ _ (hportlen m) (hnodeagree m))
    · have h1 : g.get_node m = none := by
        rw [AudioGraphIo.validNode, Option.isSome_iff_exists] at hvm
        cases hx : g.get_node m with
        | none => rfl
        | some w => exact absurd ⟨w, rfl⟩ (hx ▸ hvm)
      have h2 : (g.setConnections fp S).get_node m = none := by
        have := hgetnode m
        rw [h1] at this
        cases hy : (g.setConnections fp S).get_node m with
        | none => rfl
        | some w => rw [hy] at this; simp at this
      rw [h1, h2]
  congr 1
  · exact hfieldgen fp.node_index _ (fun itf1 itf2 hl _ => by
      rw [Interface.get_connections, Interface.get_connections]
      cases Nat.lt_or_ge fp.index itf1.ports.length with
      | inl hlt1 =>
        rw [List.getElem?_eq_getElem hlt1,
          List.getElem?_eq_getElem (hl ▸ hlt1)]
        rfl
      | inr hge1 =>
        rw [List.getElem?_eq_none hge1, List.getElem?_eq_none (hl ▸ hge1)])
  · exact hfieldgen tp.node_index _ (fun itf1 itf2 _ hn => by rw [hn])

/-- Inserting a validated edge preserves the no-dangling-reference
invariant. -/
theorem WF_setConnections_insert (g : AudioGraphIo) (fp tp : Port)
    (hwf : g.WF) (h : (g.get_connections fp).isSome = true)
    (htp : g.validNode tp.node_index) :
    (g.setConnections fp (insert tp (g.connections fp))).WF := by
  obtain ⟨hv, hidx⟩ := get_connections_isSome_spec g fp h
  have hlt : fp.index < (g.node fp.node_index).ports.length :=
    (List.getElem?_eq_some.mp hidx).1
  obtain ⟨hports, _, hne, hsome⟩ :=
    setConnections_props g fp (insert tp (g.connections fp)) h
  have hvtrans : ∀ m, g.validNode m →
      (g.setConnections fp (insert tp (g.connections fp))).validNode m := by
    intro m hm
    rw [AudioGraphIo.validNode, hsome m]
    exact hm
  intro a s hs p hp
  by_cases ha : a = fp.node_index
  · subst ha
    rw [hports] at hs
    obtain ⟨k, hk⟩ := List.mem_iff_getElem?.mp hs
    rw [List.getElem?_set] at hk
    by_cases hki : fp.index = k
    · rw [if_pos hki, if_pos hlt] at hk
      have hseq : s = insert tp (g.connections fp) := by
        injection hk with hh
        exact hh.symm
      subst hseq
      rcases Finset.mem_insert.mp hp with rfl | hmem
      · exact hvtrans _ htp
      · exact hvtrans _
          (hwf fp.node_index (g.connections fp) (List.getElem?_mem hidx) p hmem)
    · rw [if_neg hki] at hk
      exact hvtrans _ (hwf fp.node_index s (List.getElem?_mem hk) p hp)
  · rw [hne a ha] at hs
    exact hvtrans _ (hwf a s hs p hp)

/-! ## Claim C1: cycle prevention -/

/-- C1: on a well-formed graph whose non-global part is acyclic, for an
`insert_edge(from, to)` call between non-global endpoints that passes
validation: if the graph has a directed path from `to.node` back to
`from.node` (including the degenerate one-node path), the call fails
with the cycle-found error and the graph is unchanged; otherwise the
call succeeds, the edge is added to `from`'s port set, and the graph
restricted to non-global nodes is still acyclic. -/
theorem C1_insert_edge_cycle_safety (g : AudioGraphIo) (fp tp : Port)
    (hwf : g.WF) (hacyc : g.AcyclicNG)
    (hfg : fp.node_index.is_global = false)
    (htg : tp.node_index.is_global = false)
    (hval : (g.edgeNotFoundFor fp tp).is_not_error = true) :
    (g.Reaches tp.node_index fp.node_index →
      g.insert_edge fp tp = (.error (.CycleFound ⟨⟩), g)) ∧
    (¬g.Reaches tp.node_index fp.node_index →
      ∃ (b : Bool) (g2 : AudioGraphIo),
        g.insert_edge fp tp = (.ok b, g2) ∧
        g2 = g.setConnections fp (insert tp (g.connections fp)) ∧
        tp ∈ g2.connections fp ∧ g2.AcyclicNG) := by
  obtain ⟨hfrom, hvto, hlto⟩ := (is_not_error_iff g fp tp).mp hval
  have htpA : tp.node_index ∈ g.validNodes := validNode_mem_validNodes g _ hvto
  constructor
  · intro hreach
    have hconn : g.connected tp.node_index fp.node_index = true := by
      cases hc : g.connected tp.node_index fp.node_index with
      | false =>
        exact absurd hreach (connected_false_not_reaches g _ _ hwf htpA hc)
      | true => rfl
    simp [AudioGraphIo.insert_edge, hval, hfg, htg, hconn]
  · intro hnreach
    have hconn : g.connected tp.node_index fp.node_index = false := by
      cases hc : g.connected tp.node_index fp.node_index with
      | true => exact absurd (connected_true_reaches g _ _ hc) hnreach
      | false => rfl
    have heq : g.insert_edge fp tp
        = (.ok (decide (tp ∉ g.connections fp)),
           g.setConnections fp (insert tp (g.connections fp))) := by
      simp [AudioGraphIo.insert_edge, hval, hfg, htg, hconn]
    refine ⟨decide (tp ∉ g.connections fp),
      g.setConnections fp (insert tp (g.connections fp)), heq, rfl, ?_, ?_⟩
    · rw [(connections_setConnections g fp _ hfrom).1]
      exact Finset.mem_insert_self tp (g.connections fp)
    · intro n hcyc
      have hstepiff := step_insert_edge_iff g fp tp hfrom
      have hsub : ∀ a b,
          (g.setConnections fp (insert tp (g.connections fp))).stepNG a b →
          (g.stepNG a b ∨ (a = tp.node_index ∧ b = fp.node_index) ∨
            (a = fp.node_index ∧ b = tp.node_index)) := by
        rintro a b ⟨ha, hb, hstep⟩
        rcases (hstepiff a b).mp hstep with hh | ⟨rfl, rfl⟩
        · exact Or.inl ⟨ha, hb, hh⟩
        · exact Or.inr (Or.inr ⟨rfl, rfl⟩)
      have hsub2 : ∀ a b,
          (g.setConnections fp (insert tp (g.connections fp))).stepNG a b →
          (fun x y => g.stepNG x y ∨
            (x = fp.node_index ∧ y = tp.node_index)) a b := by
        rintro a b ⟨ha, hb, hstep⟩
        rcases (hstepiff a b).mp hstep with hh | ⟨rfl, rfl⟩
        · exact Or.inl ⟨ha, hb, hh⟩
        · exact Or.inr ⟨rfl, rfl⟩
      have hcyc2 : Relation.TransGen
          (fun x y => g.stepNG x y ∨
            (x = fp.node_index ∧ y = tp.node_index)) n n :=
        hcyc.mono hsub2
      rcases transGen_union_single g.stepNG fp.node_index tp.node_index n n
          hcyc2 with h1 | ⟨h1, h2⟩
      · exact hacyc n h1
      · have h3 := h1.trans h2
        have h4 : Relation.ReflTransGen g.stepNG tp.node_index fp.node_index := by
          rcases reflTransGen_union_single g.stepNG fp.node_index tp.node_index
              tp.node_index fp.node_index h3 with h5 | ⟨h5, _⟩
          · exact h5
          · exact h5
        exact hnreach (h4.mono fun a b hab => hab.2.2)

/-- Decidable sufficient condition for `WF` on a concrete graph: check
the global interface and each processor slot. -/
theorem WF_of_parts (g : AudioGraphIo)
    (hg : ∀ s ∈ g.global.ports, ∀ p ∈ s, g.validNode p.node_index)
    (hp : ∀ k, k < g.processors.length →
      ∀ s ∈ (g.node (.Processor k)).ports, ∀ p ∈ s,
        g.validNode p.node_index) : g.WF := by
  intro a s hs p hpmem
  cases a with
  | Global => exact hg s hs p hpmem
  | Processor k =>
    by_cases hk : k < g.processors.length
    · exact hp k hk s hs p hpmem
    · rw [AudioGraphIo.node, AudioGraphIo.get_node, StableVec.get,
        List.getElem?_eq_none (Nat.le_of_not_lt hk)] at hs
      simp at hs

/-- Decidable sufficient condition for acyclicity of the non-global part
on a concrete graph: a numeric rank strictly increasing along every
stored edge. -/
theorem acyclicNG_of_rank_bounded (g : AudioGraphIo) (f : NodeIndex → Nat)
    (hg : ∀ s ∈ g.global.ports, ∀ p ∈ s, f .Global < f p.node_index)
    (hp : ∀ k, k < g.processors.length →
      ∀ s ∈ (g.node (.Processor k)).ports, ∀ p ∈ s,
        f (.Processor k) < f p.node_index) : g.AcyclicNG := by
  have hstep : ∀ a b, g.step a b → f a < f b := by
    rintro a b ⟨s, hs, p, hpmem, rfl⟩
    cases a with
    | Global => exact hg s hs p hpmem
    | Processor k =>
      by_cases hk : k < g.processors.length
      · exact hp k hk s hs p hpmem
      · rw [AudioGraphIo.node, AudioGraphIo.get_node, StableVec.get,
          List.getElem?_eq_none (Nat.le_of_not_lt hk)] at hs
        simp at hs
  intro n hcyc
  have key : ∀ a b, Relation.TransGen g.stepNG a b → f a < f b := by
    intro a b hab
    induction hab with
    | single h1 => exact hstep _ _ h1.2.2
    | tail _ h1 ih => exact lt_trans ih (hstep _ _ h1.2.2)
  exact lt_irrefl _ (key n n hcyc)

/-- Witness for C1 at the concrete two-processor graph `egPair` and the
edge processor-0 port 0 → processor-1 port 0. -/
theorem C1_insert_edge_cycle_safety_witness :
    (egPair.Reaches (Port.new 0 (.Processor 1)).node_index
        (Port.new 0 (.Processor 0)).node_index →
      egPair.insert_edge (Port.new 0 (.Processor 0)) (Port.new 0 (.Processor 1))
        = (.error (.CycleFound ⟨⟩), egPair)) ∧
    (¬egPair.Reaches (Port.new 0 (.Processor 1)).node_index
        (Port.new 0 (.Processor 0)).node_index →
      ∃ (b : Bool) (g2 : AudioGraphIo),
        egPair.insert_edge (Port.new 0 (.Processor 0))
          (Port.new 0 (.Processor 1)) = (.ok b, g2) ∧
        g2 = egPair.setConnections (Port.new 0 (.Processor 0))
          (insert (Port.new 0 (.Processor 1))
            (egPair.connections (Port.new 0 (.Processor 0)))) ∧
        Port.new 0 (.Processor 1) ∈
          g2.connections (Port.new 0 (.Processor 0)) ∧
        g2.AcyclicNG) :=
  C1_insert_edge_cycle_safety egPair (Port.new 0 (.Processor 0))
    (Port.new 0 (.Processor 1))
    (WF_of_parts egPair (by decide) (by decide))
    (acyclicNG_of_rank_bounded egPair egPairRank (by decide) (by decide))
    (by decide) (by decide) (by decide)

/-! ## Claim C5: edge idempotence -/

/-- C5: on a well-formed graph, if `insert_edge(from, to)` succeeds then
an immediate identical call returns `Ok(false)` ("already present")
leaving the graph — in particular the size of `from`'s port set —
unchanged; and `remove_edge` on validated endpoints whose edge is absent
returns `Ok(false)` without modifying the graph. -/
theorem C5_edge_idempotence (g : AudioGraphIo) (fp tp : Port) (hwf : g.WF) :
    (∀ (b : Bool) (g1 : AudioGraphIo), g.insert_edge fp tp = (.ok b, g1) →
      g1.insert_edge fp tp = (.ok false, g1) ∧
      ((g1.insert_edge fp tp).2.connections fp).card
        = (g1.connections fp).card) ∧
    ((g.edgeNotFoundFor fp tp).is_not_error = true →
      tp ∉ g.connections fp →
      g.remove_edge fp tp = (.ok false, g)) := by
  constructor
  · intro b g1 hfirst
    have hval : (g.edgeNotFoundFor fp tp).is_not_error = true := by
      cases h : (g.edgeNotFoundFor fp tp).is_not_error with
      | true => rfl
      | false => simp [AudioGraphIo.insert_edge, h] at hfirst
    obtain ⟨hfrom, hvto, hlto⟩ := (is_not_error_iff g fp tp).mp hval
    have htpA : tp.node_index ∈ g.validNodes :=
      validNode_mem_validNodes g _ hvto
    have hnocycle : ¬((fp.node_index.is_global = false ∧
        tp.node_index.is_global = false) ∧
        g.connected tp.node_index fp.node_index = true) := by
      intro hc
      simp [AudioGraphIo.insert_edge, hval, hc] at hfirst
    have heq : g.insert_edge fp tp
        = (.ok (!decide (tp ∈ g.connections fp)),
           g.setConnections fp (insert tp (g.connections fp))) := by
      simp [AudioGraphIo.insert_edge, hval, hnocycle]
    have hg1 : g1 = g.setConnections fp (insert tp (g.connections fp)) := by
      rw [heq] at hfirst
      injection hfirst with h1 h2
      exact h2.symm
    subst hg1
    have hconn1 :=
      connections_setConnections g fp (insert tp (g.connections fp)) hfrom
    have hvalg1 : ((g.setConnections fp
        (insert tp (g.connections fp))).edgeNotFoundFor fp tp).is_not_error
        = true := by
      rw [edgeNotFoundFor_setConnections g fp tp _ hfrom]
      exact hval
    have hnocycle1 : ¬((fp.node_index.is_global = false ∧
        tp.node_index.is_global = false) ∧
        (g.setConnections fp (insert tp (g.connections fp))).connected
          tp.node_index fp.node_index = true) := by
      rintro ⟨hC, hcg1⟩
      have hcgf : g.connected tp.node_index fp.node_index = false := by
        cases hx : g.connected tp.node_index fp.node_index with
        | false => rfl
        | true => exact absurd ⟨hC, hx⟩ hnocycle
      have hnr : ¬g.Reaches tp.node_index fp.node_index :=
        connected_false_not_reaches g _ _ hwf htpA hcgf
      have hr1 := connected_true_reaches _ _ _ hcg1
      have hstepiff := step_insert_edge_iff g fp tp hfrom
      have hr2 : Relation.ReflTransGen
          (fun x y => g.step x y ∨ (x = fp.node_index ∧ y = tp.node_index))
          tp.node_index fp.node_index :=
        hr1.mono fun a c hac => (hstepiff a c).mp hac
      rcases reflTransGen_union_single g.step fp.node_index tp.node_index
          tp.node_index fp.node_index hr2 with h5 | ⟨h5, _⟩
      · exact hnr h5
      · exact hnr h5
    have heq2 : (g.setConnections fp (insert tp (g.connections fp))).insert_edge
        fp tp = (.ok (!decide (tp ∈ (g.setConnections fp
            (insert tp (g.connections fp))).connections fp)),
          (g.setConnections fp (insert tp (g.connections fp))).setConnections fp
            (insert tp ((g.setConnections fp
              (insert tp (g.connections fp))).connections fp))) := by
      simp [AudioGraphIo.insert_edge, hvalg1, hnocycle1]
    have hmem : tp ∈ (g.setConnections fp
        (insert tp (g.connections fp))).connections fp := by
      rw [hconn1.1]
      exact Finset.mem_insert_self tp (g.connections fp)
    have hidem : insert tp ((g.setConnections fp
        (insert tp (g.connections fp))).connections fp)
        = (g.setConnections fp (insert tp (g.connections fp))).connections fp :=
      Finset.insert_eq_self.mpr hmem
    have hsetself : (g.setConnections fp
        (insert tp (g.connections fp))).setConnections fp
          ((g.setConnections fp (insert tp (g.connections fp))).connections fp)
        = g.setConnections fp (insert tp (g.connections fp)) :=
      setConnections_self _ fp hconn1.2
    constructor
    · rw [heq2, hidem, hsetself]
      simp [hmem]
    · rw [heq2, hidem, hsetself]
  · intro hval hnot
    have hfrom := ((is_not_error_iff g fp tp).mp hval).1
    have herase : (g.connections fp).erase tp = g.connections fp :=
      Finset.erase_eq_of_not_mem hnot
    simp [AudioGraphIo.remove_edge, hval, hnot, herase,
      setConnections_self g fp hfrom]

/-- Witness for C5: on `egPair`, the first insertion of the edge
processor-0 port 0 → processor-1 port 0 succeeds producing `egPairE`,
and removing the absent reverse edge on validated endpoints reports
"not present" without modifying the graph. -/
theorem C5_edge_idempotence_witness :
    (∀ (b : Bool) (g1 : AudioGraphIo),
      egPair.insert_edge (Port.new 0 (.Processor 0)) (Port.new 0 (.Processor 1))
        = (.ok b, g1) →
      g1.insert_edge (Port.new 0 (.Processor 0)) (Port.new 0 (.Processor 1))
        = (.ok false, g1) ∧
      ((g1.insert_edge (Port.new 0 (.Processor 0))
          (Port.new 0 (.Processor 1))).2.connections
            (Port.new 0 (.Processor 0))).card
        = (g1.connections (Port.new 0 (.Processor 0))).card) ∧
    ((egPair.edgeNotFoundFor (Port.new 0 (.Processor 0))
        (Port.new 0 (.Processor 1))).is_not_error = true →
      Port.new 0 (.Processor 1) ∉
        egPair.connections (Port.new 0 (.Processor 0)) →
      egPair.remove_edge (Port.new 0 (.Processor 0))
        (Port.new 0 (.Processor 1)) = (.ok false, egPair)) :=
  C5_edge_idempotence egPair (Port.new 0 (.Processor 0))
    (Port.new 0 (.Processor 1)) (WF_of_parts egPair (by decide) (by decide))

/-! ## Claim C6: dual-graph construction -/

/-- Position lookup succeeds exactly within bounds. -/
theorem getElem?_isSome_iff_lt {α : Type} (l : List α) (i : Nat) :
    l[i]?.isSome = true ↔ i < l.length := by
  constructor
  · intro h
    obtain ⟨a, ha⟩ := Option.isSome_iff_exists.mp h
    exact (List.getElem?_eq_some.mp ha).1
  · intro h
    rw [List.getElem?_eq_getElem h]
    rfl

/-- Membership in the flattened iteration space of
`insert_opposite_ports` at node `n`. -/
theorem mem_oppPairs (I : AudioGraphIo) (n : NodeIndex) (pr : Port × Port) :
    pr ∈ I.oppPairs n ↔
    ∃ i s, (I.node n).ports[i]? = some s ∧ pr.2 ∈ s ∧ pr.1 = Port.new i n := by
  simp only [AudioGraphIo.oppPairs, List.mem_flatten, List.mem_map]
  constructor
  · rintro ⟨l, ⟨⟨i, s⟩, hmem, rfl⟩, hpr⟩
    obtain ⟨p, hp, hpe⟩ := List.mem_map.mp hpr
    subst hpe
    exact ⟨i, s, List.mem_enum_iff_getElem?.mp hmem,
      (mem_portSort s p).mp hp, rfl⟩
  · rintro ⟨i, s, hget, hp, hpr1⟩
    refine ⟨(portSort s).map fun p => (Port.new i n, p),
      ⟨(i, s), List.mem_enum_iff_getElem?.mpr hget, rfl⟩, ?_⟩
    refine List.mem_map.mpr ⟨pr.2, (mem_portSort s pr.2).mpr hp, ?_⟩
    exact Prod.ext hpr1.symm rfl

/-- The ports resolvable in the freshly built mirror are exactly the
opposite-side ports of the primary graph. -/
theorem mirror_get_connections_isSome (I : AudioGraphIo) (q : Port) :
    ((I.with_opposite_config).get_connections q).isSome = true ↔
    (I.validNode q.node_index ∧
      q.index < (I.node q.node_index).num_opposite_ports) := by
  cases hq : q.node_index with
  | Global =>
    have hnode : I.with_opposite_config.get_node NodeIndex.Global
        = some I.global.with_opposite_config := rfl
    rw [AudioGraphIo.get_connections, hq, hnode, Option.some_bind,
      Interface.get_connections]
    have hlen : I.global.with_opposite_config.ports.length
        = I.global.num_opposite_ports := by
      simp [Interface.with_opposite_config, Interface.with_io_config]
    rw [getElem?_isSome_iff_lt, hlen]
    have hval : I.validNode NodeIndex.Global := by
      rw [AudioGraphIo.validNode, AudioGraphIo.get_node]; rfl
    have hnum : (I.node NodeIndex.Global).num_opposite_ports
        = I.global.num_opposite_ports := rfl
    rw [hnum]
    exact ⟨fun h => ⟨hval, h⟩, fun h => h.2⟩
  | Processor i =>
    rw [AudioGraphIo.get_connections, hq]
    cases hx : I.processors[i]? with
    | none =>
      have h1 : I.with_opposite_config.get_node (NodeIndex.Processor i)
          = none := by
        simp [AudioGraphIo.with_opposite_config, AudioGraphIo.get_node,
          StableVec.get, List.getElem?_map, hx]
      have h2 : ¬I.validNode (NodeIndex.Processor i) := by
        simp [AudioGraphIo.validNode, AudioGraphIo.get_node, StableVec.get, hx]
      rw [h1]
      simp [h2]
    | some o =>
      cases o with
      | none =>
        have h1 : I.with_opposite_config.get_node (NodeIndex.Processor i)
            = none := by
          simp [AudioGraphIo.with_opposite_config, AudioGraphIo.get_node,
            StableVec.get, List.getElem?_map, hx]
        have h2 : ¬I.validNode (NodeIndex.Processor i) := by
          simp [AudioGraphIo.validNode, AudioGraphIo.get_node, StableVec.get,
            hx]
        rw [h1]
        simp [h2]
      | some itf =>
        have h1 : I.with_opposite_config.get_node (NodeIndex.Processor i)
            = some itf.with_opposite_config := by
          simp [AudioGraphIo.with_opposite_config, AudioGraphIo.get_node,
            StableVec.get, List.getElem?_map, hx]
        have h2 : I.validNode (NodeIndex.Processor i) := by
          simp [AudioGraphIo.validNode, AudioGraphIo.get_node, StableVec.get,
            hx]
        have h3 : I.node (NodeIndex.Processor i) = itf := by
          simp [AudioGraphIo.node, AudioGraphIo.get_node, StableVec.get, hx]
        rw [h1, Option.some_bind, Interface.get_connections, h3]
        have hlen : itf.with_opposite_config.ports.length
            = itf.num_opposite_ports := by
          simp [Interface.with_opposite_config, Interface.with_io_config]
        rw [getElem?_isSome_iff_lt, hlen]
        exact ⟨fun h => ⟨h2, h⟩, fun h => h.2⟩

/-- A validated write never changes which ports resolve. -/
theorem setConnections_get_connections_isSome (g : AudioGraphIo) (fp : Port)
    (S : Ports) (h : (g.get_connections fp).isSome = true) (q : Port) :
    ((g.setConnections fp S).get_connections q).isSome
      = (g.get_connections q).isSome := by
  obtain ⟨hports, _, hne, hsome⟩ := setConnections_props g fp S h
  by_cases hv : g.validNode q.node_index
  · have hv2 : (g.setConnections fp S).validNode q.node_index := by
      rw [AudioGraphIo.validNode, hsome]; exact hv
    rw [AudioGraphIo.get_connections, AudioGraphIo.get_connections,
      get_node_eq_some_node _ _ hv, get_node_eq_some_node _ _ hv2,
      Option.some_bind, Option.some_bind, Interface.get_connections,
      Interface.get_connections]
    by_cases hq : q.node_index = fp.node_index
    · rw [hq, hports, Bool.eq_iff_iff, getElem?_isSome_iff_lt,
        getElem?_isSome_iff_lt, List.length_set]
    · rw [hne q.node_index hq]
  · have h1 : g.get_node q.node_index = none := by
      cases hx : g.get_node q.node_index with
      | none => rfl
      | some w =>
        rw [AudioGraphIo.validNode, hx] at hv
        simp at hv
    have h2 : (g.setConnections fp S).get_node q.node_index = none := by
      have := hsome q.node_index
      rw [h1] at this
      cases hy : (g.setConnections fp S).get_node q.node_index with
      | none => rfl
      | some w => rw [hy] at this; simp at this
    rw [AudioGraphIo.get_connections, AudioGraphIo.get_connections, h1, h2]

/-- A validated write touches no other port's stored set. -/
theorem connections_setConnections_other (g : AudioGraphIo) (fp : Port)
    (S : Ports) (h : (g.get_connections fp).isSome = true) (q : Port)
    (hq : q ≠ fp) :
    (g.setConnections fp S).connections q = g.connections q := by
  obtain ⟨hports, _, hne, hsome⟩ := setConnections_props g fp S h
  by_cases hqn : q.node_index = fp.node_index
  · have hqi : q.index ≠ fp.index := by
      intro hc
      exact hq (by
        cases q with
        | mk qi qn =>
          cases fp with
          | mk fi fn =>
            simp only at hqn hc
            rw [Port.mk.injEq]
            exact ⟨hc, hqn⟩)
    by_cases hv : g.validNode q.node_index
    · have hv2 : (g.setConnections fp S).validNode q.node_index := by
        rw [AudioGraphIo.validNode, hsome]; exact hv
      rw [AudioGraphIo.connections, AudioGraphIo.connections,
        AudioGraphIo.get_connections, AudioGraphIo.get_connections,
        get_node_eq_some_node _ _ hv, get_node_eq_some_node _ _ hv2,
        Option.some_bind, Option.some_bind, Interface.get_connections,
        Interface.get_connections, hqn, hports,
        List.getElem?_set_ne (fun hc => hqi hc.symm)]
    · have h1 : g.get_node q.node_index = none := by
        cases hx : g.get_node q.node_index with
        | none => rfl
        | some w => rw [AudioGraphIo.validNode, hx] at hv; simp at hv
      have h2 : (g.setConnections fp S).get_node q.node_index = none := by
        have := hsome q.node_index
        rw [h1] at this
        cases hy : (g.setConnections fp S).get_node q.node_index with
        | none => rfl
        | some w => rw [hy] at this; simp at this
      rw [AudioGraphIo.connections, AudioGraphIo.connections,
        AudioGraphIo.get_connections, AudioGraphIo.get_connections, h1, h2]
  · rw [AudioGraphIo.connections, AudioGraphIo.connections,
      AudioGraphIo.get_connections, AudioGraphIo.get_connections]
    by_cases hv : g.validNode q.node_index
    · have hv2 : (g.setConnections fp S).validNode q.node_index := by
        rw [AudioGraphIo.validNode, hsome]; exact hv
      rw [get_node_eq_some_node _ _ hv, get_node_eq_some_node _ _ hv2,
        Option.some_bind, Option.some_bind, Interface.get_connections,
        Interface.get_connections, hne q.node_index hqn]
    · have h1 : g.get_node q.node_index = none := by
        cases hx : g.get_node q.node_index with
        | none => rfl
        | some w => rw [AudioGraphIo.validNode, hx] at hv; simp at hv
      have h2 : (g.setConnections fp S).get_node q.node_index = none := by
        have := hsome q.node_index
        rw [h1] at this
        cases hy : (g.setConnections fp S).get_node q.node_index with
        | none => rfl
        | some w => rw [hy] at this; simp at this
      rw [h1, h2]

/-- One mirrored insertion: the target set gains the port, everything
else is untouched, and the shape is preserved. -/
theorem insertConn_spec (g : AudioGraphIo) (p q : Port)
    (h : (g.get_connections p).isSome = true) :
    q ∈ (g.insertConn p q).connections p ∧
    (∀ r : Port, g.connections r ⊆ (g.insertConn p q).connections r) ∧
    ∀ r : Port, ((g.insertConn p q).get_connections r).isSome
      = (g.get_connections r).isSome := by
  refine ⟨?_, ?_, ?_⟩
  · rw [AudioGraphIo.insertConn, (connections_setConnections g p _ h).1]
    exact Finset.mem_insert_self q _
  · intro r
    by_cases hr : r = p
    · subst hr
      rw [AudioGraphIo.insertConn, (connections_setConnections g r _ h).1]
      exact Finset.subset_insert q _
    · rw [AudioGraphIo.insertConn,
        connections_setConnections_other g p _ h r hr]
  · intro r
    exact setConnections_get_connections_isSome g p _ h r

/-- A node other than the global pseudo-node has `is_global = false`. -/
theorem is_global_false_of_ne (a : NodeIndex) (h : a ≠ NodeIndex.Global) :
    a.is_global = false := by
  cases a with
  | Global => exact absurd rfl h
  | Processor i => rfl

/-- Under the one-sided-global invariant, acyclicity of the non-global
part extends to the whole graph: the global node cannot sit on a
cycle. -/
theorem acyclic_full (I : AudioGraphIo) (hng : I.AcyclicNG)
    (hone : I.GlobalOneSided) : ∀ n, ¬Relation.TransGen I.step n n := by
  intro n hcyc
  rcases hone with hnoref | hempty
  · have htgt : ∀ a b, I.step a b → b ≠ NodeIndex.Global := by
      rintro a b ⟨s, hs, p, hp, rfl⟩ hc
      exact hnoref a s hs p hp hc
    have key : ∀ a b, Relation.TransGen I.step a b →
        a ≠ NodeIndex.Global → Relation.TransGen I.stepNG a b := by
      intro a b hab
      induction hab with
      | single h1 =>
        intro ha
        exact Relation.TransGen.single
          ⟨is_global_false_of_ne _ ha, is_global_false_of_ne _ (htgt _ _ h1),
            h1⟩
      | tail h1 h2 ih =>
        intro ha
        rename_i b2 c2
        have hb2 : b2 ≠ NodeIndex.Global := by
          cases h1 with
          | single h3 => exact htgt _ _ h3
          | tail h3 h4 => exact htgt _ _ h4
        exact (ih ha).tail
          ⟨is_global_false_of_ne _ hb2, is_global_false_of_ne _ (htgt _ _ h2),
            h2⟩
    have hn : n ≠ NodeIndex.Global := by
      cases hcyc with
      | single h => exact htgt _ _ h
      | tail h1 h2 => exact htgt _ _ h2
    exact hng n (key n n hcyc hn)
  · have hsrc : ∀ a b, I.step a b → a ≠ NodeIndex.Global := by
      rintro a b ⟨s, hs, p, hp, rfl⟩ hc
      subst hc
      have : s = ∅ := hempty s hs
      subst this
      exact absurd hp (Finset.not_mem_empty p)
    have key : ∀ a b, Relation.TransGen I.step a b →
        b ≠ NodeIndex.Global → Relation.TransGen I.stepNG a b := by
      intro a b hab
      induction hab with
      | single h1 =>
        intro hb
        exact Relation.TransGen.single
          ⟨is_global_false_of_ne _ (hsrc _ _ h1), is_global_false_of_ne _ hb,
            h1⟩
      | tail h1 h2 ih =>
        intro hc
        exact (ih (hsrc _ _ h2)).tail
          ⟨is_global_false_of_ne _ (hsrc _ _ h2), is_global_false_of_ne _ hc,
            h2⟩
    have hn : n ≠ NodeIndex.Global := by
      obtain ⟨c, hstep, _⟩ := Relation.TransGen.head'_iff.mp hcyc
      exact hsrc _ _ hstep
    exact hng n (key n n hcyc hn)

/-- Prefix-monotonicity of membership in `take`. -/
theorem mem_take_mono {α : Type} (o : List α) (j k : Nat) (hjk : j ≤ k)
    (m : α) (h : m ∈ o.take j) : m ∈ o.take k := by
  obtain ⟨i, hi, hie⟩ := List.mem_take_iff_getElem.mp h
  exact List.mem_take_iff_getElem.mpr
    ⟨i, lt_min (lt_of_lt_of_le (lt_of_lt_of_le hi (min_le_left _ _)) hjk)
      (lt_of_lt_of_le hi (min_le_right _ _)), hie⟩

/-- The positional dependency-first property extends to transitive
dependencies. -/
theorem ordInv_transGen (I : AudioGraphIo) (o : List NodeIndex)
    (hinv : I.OrdInv o) :
    ∀ k, (hk : k < o.length) → ∀ m,
      Relation.TransGen I.step (o.get ⟨k, hk⟩) m → m ∈ o.take k := by
  intro k
  induction k using Nat.strong_induction_on with
  | _ k ih =>
    intro hk m htrans
    obtain ⟨c, hstep, hrt⟩ := Relation.TransGen.head'_iff.mp htrans
    have hc : c ∈ o.take k := hinv k hk c hstep
    obtain ⟨j, hj, hjc⟩ := List.mem_take_iff_getElem.mp hc
    have hjk : j < k := lt_of_lt_of_le hj (min_le_left _ _)
    have hjl : j < o.length := lt_of_lt_of_le hj (min_le_right _ _)
    rcases Relation.reflTransGen_iff_eq_or_transGen.mp hrt with rfl | htrans2
    · exact hc
    · have hoj : o.get ⟨j, hjl⟩ = c := hjc
      have hmem := ih j hjk hjl m (hoj ▸ htrans2)
      exact mem_take_mono o j k (Nat.le_of_lt hjk) m hmem

/-- At the acyclic two-processor primary graph `egPairE` (edge stored at
processor 0's port 0, source port 0 of processor 1) with start node
`Global` and initially empty `registered`/`register_order`, the claimed
universal mirroring fails: the edge's destination is unreachable from
the start node, so the mirror stays empty and nothing is registered. -/
theorem C6_dual_graph_counterexample :
    egPairE.AcyclicNG ∧
    Port.new 0 (.Processor 1) ∈ egPairE.connections (Port.new 0 (.Processor 0)) ∧
    Port.new 0 (.Processor 0) ∉ egPairEMirror.1.connections
      (Port.new 0 (.Processor 1)) ∧
    egPairEMirror.2.2 = [] :=
  ⟨acyclicNG_of_rank_bounded egPairE egPairRank (by decide) (by decide),
   by decide, by decide, by decide⟩

/-- Appending a node whose direct dependencies are all already listed
preserves the positional dependency-first property. -/
theorem ordInv_push (I : AudioGraphIo) (o : List NodeIndex) (n : NodeIndex)
    (hinv : I.OrdInv o) (hn : ∀ m, I.step n m → m ∈ o) :
    I.OrdInv (o ++ [n]) := by
  intro k hk m hstep
  have hk2 : k < o.length + 1 := by
    simpa using hk
  by_cases hkl : k < o.length
  · have hget : (o ++ [n]).get ⟨k, hk⟩ = o.get ⟨k, hkl⟩ := by
      rw [List.get_eq_getElem, List.get_eq_getElem]
      exact List.getElem_append_left hkl
    rw [hget] at hstep
    rw [List.take_append_of_le_length (Nat.le_of_lt hkl)]
    exact hinv k hkl m hstep
  · have hke : k = o.length := by omega
    have hget : (o ++ [n]).get ⟨k, hk⟩ = n := by
      rw [List.get_eq_getElem, List.getElem_append_right (Nat.le_of_eq hke.symm)]
      simp [hke]
    rw [hget] at hstep
    rw [hke, List.take_left]
    exact hn m hstep

/-- Appending a fresh node matches inserting it into the registered
set. -/
theorem regEq_push (reg : Finset NodeIndex) (o : List NodeIndex)
    (n : NodeIndex) (h : reg = o.toFinset) :
    insert n reg = (o ++ [n]).toFinset := by
  rw [h, List.toFinset_append, List.toFinset_cons, List.toFinset_nil]
  rw [Finset.insert_eq, Finset.insert_eq, Finset.union_empty,
    Finset.union_comm]

/-- Appending a fresh node preserves distinctness. -/
theorem nodup_push (o : List NodeIndex) (n : NodeIndex) (hnd : o.Nodup)
    (hnm : n ∉ o) : (o ++ [n]).Nodup := by
  rw [List.nodup_append]
  exact ⟨hnd, List.nodup_singleton n, fun a ha hb => by
    rw [List.mem_singleton] at hb
    exact hnm (hb ▸ ha)⟩

/-- If the global node is ever referenced as a source in some port set,
the one-sidedness invariant forces it to have no outgoing hops. -/
theorem no_step_from_global_of_ref (I : AudioGraphIo)
    (hone : I.GlobalOneSided) (a : NodeIndex) (s : Ports)
    (hs : s ∈ (I.node a).ports) (p : Port) (hp : p ∈ s)
    (hg : p.node_index = NodeIndex.Global) :
    ∀ m, ¬I.step NodeIndex.Global m := by
  rcases hone with hnoref | hempty
  · exact absurd hg (hnoref a s hs p hp)
  · rintro m ⟨s2, hs2, p2, hp2, _⟩
    have h2 : s2 = ∅ := hempty s2 hs2
    subst h2
    exact absurd hp2 (Finset.not_mem_empty p2)

/-- Behaviour of one full sweep of the `insert_opposite_ports` loop over
a pair list, given the behaviour of the recursive continuation `f`:
the mirror keeps its shape and only grows, every listed edge is
mirrored, every listed source node ends registered, the order extends
by proper descendants of listed source nodes, and the registration
invariants (set = listed, distinct, dependency-first, mirrored-when-
registered) are maintained. -/
theorem oppScan_spec (I : AudioGraphIo) (hwf : I.WF) (hdeg : I.WFDeg)
    (hone : I.GlobalOneSided)
    (hfa : ∀ n, ¬Relation.TransGen I.step n n)
    (f : AudioGraphIo → NodeIndex → Finset NodeIndex → List NodeIndex →
      AudioGraphIo × Finset NodeIndex × List NodeIndex) :
    ∀ (pairs : List (Port × Port)),
      (∀ pr ∈ pairs, ∃ a, ∃ s ∈ (I.node a).ports, pr.2 ∈ s) →
      (∀ (self1 : AudioGraphIo) (reg1 : Finset NodeIndex)
        (ord1 : List NodeIndex) (pr : Port × Port) (fs : AudioGraphIo)
        (fr : Finset NodeIndex) (fo : List NodeIndex), pr ∈ pairs →
        f self1 pr.2.node_index reg1 ord1 = (fs, fr, fo) →
        pr.2.node_index.is_global = false →
        I.MirrorShape self1 → reg1 = ord1.toFinset → ord1.Nodup →
        I.OrdInv ord1 → I.MirrorDone self1 ord1 →
        I.MirrorShape fs ∧
        (∀ q, self1.connections q ⊆ fs.connections q) ∧
        (∀ pr2 ∈ I.oppPairs pr.2.node_index, pr2.1 ∈ fs.connections pr2.2) ∧
        (∃ suf, fo = ord1 ++ suf ∧
          ∀ m ∈ suf, Relation.TransGen I.step pr.2.node_index m) ∧
        fr = fo.toFinset ∧ fo.Nodup ∧ I.OrdInv fo ∧
        (∀ m, I.step pr.2.node_index m → m ∈ fr) ∧
        I.MirrorDone fs fo) →
      ∀ (self : AudioGraphIo) (reg : Finset NodeIndex) (ord : List NodeIndex)
        (s2 : AudioGraphIo) (r2 : Finset NodeIndex) (o2 : List NodeIndex),
        oppScan f pairs self reg ord = (s2, r2, o2) →
        I.MirrorShape self → reg = ord.toFinset → ord.Nodup →
        I.OrdInv ord → I.MirrorDone self ord →
        I.MirrorShape s2 ∧
        (∀ q, self.connections q ⊆ s2.connections q) ∧
        (∀ pr ∈ pairs, pr.1 ∈ s2.connections pr.2) ∧
        (∃ suf, o2 = ord ++ suf ∧ ∀ m ∈ suf, ∃ pr ∈ pairs,
          (m = pr.2.node_index ∨
            Relation.TransGen I.step pr.2.node_index m)) ∧
        r2 = o2.toFinset ∧ o2.Nodup ∧ I.OrdInv o2 ∧
        (∀ pr ∈ pairs, pr.2.node_index ∈ r2) ∧
        I.MirrorDone s2 o2 := by
  intro pairs
  induction pairs with
  | nil =>
    intro _ _ self reg ord s2 r2 o2 heq hsh hreg hnd hoi hmd
    rw [oppScan] at heq
    injection heq with h1 h23
    injection h23 with h2 h3
    subst h1; subst h2; subst h3
    refine ⟨hsh, fun q => Finset.Subset.refl _, by simp, ⟨[], by simp, by simp⟩,
      hreg, hnd, hoi, by simp, hmd⟩
  | cons pr rest ih =>
    intro hpairs hf self reg ord s2 r2 o2 heq hsh hreg hnd hoi hmd
    obtain ⟨a, s, hs, hps⟩ := hpairs pr (List.mem_cons_self pr rest)
    have hvalidp : I.validNode pr.2.node_index := hwf a s hs pr.2 hps
    have hdegp : pr.2.index < (I.node pr.2.node_index).num_opposite_ports :=
      hdeg a s hs pr.2 hps
    have hval : (self.get_connections pr.2).isSome = true := by
      rw [hsh pr.2]
      exact (mirror_get_connections_isSome I pr.2).mpr ⟨hvalidp, hdegp⟩
    obtain ⟨hland, hgrow1, hshape1⟩ := insertConn_spec self pr.2 pr.1 hval
    have hsh1 : I.MirrorShape (self.insertConn pr.2 pr.1) := fun q =>
      (hshape1 q).trans (hsh q)
    have hmd1 : I.MirrorDone (self.insertConn pr.2 pr.1) ord :=
      fun n hn hgn pr2 hpr2 => hgrow1 pr2.2 (hmd n hn hgn pr2 hpr2)
    have hpairsR : ∀ pr2 ∈ rest, ∃ a2, ∃ s2 ∈ (I.node a2).ports, pr2.2 ∈ s2 :=
      fun pr2 h2 => hpairs pr2 (List.mem_cons_of_mem pr h2)
    have hfR : ∀ (self1 : AudioGraphIo) (reg1 : Finset NodeIndex)
        (ord1 : List NodeIndex) (pr2 : Port × Port) (fs : AudioGraphIo)
        (fr : Finset NodeIndex) (fo : List NodeIndex), pr2 ∈ rest →
        f self1 pr2.2.node_index reg1 ord1 = (fs, fr, fo) →
        pr2.2.node_index.is_global = false →
        I.MirrorShape self1 → reg1 = ord1.toFinset → ord1.Nodup →
        I.OrdInv ord1 → I.MirrorDone self1 ord1 →
        I.MirrorShape fs ∧
        (∀ q, self1.connections q ⊆ fs.connections q) ∧
        (∀ pr3 ∈ I.oppPairs pr2.2.node_index, pr3.1 ∈ fs.connections pr3.2) ∧
        (∃ suf, fo = ord1 ++ suf ∧
          ∀ m ∈ suf, Relation.TransGen I.step pr2.2.node_index m) ∧
        fr = fo.toFinset ∧ fo.Nodup ∧ I.OrdInv fo ∧
        (∀ m, I.step pr2.2.node_index m → m ∈ fr) ∧
        I.MirrorDone fs fo :=
      fun self1 reg1 ord1 pr2 fs fr fo h2 =>
        hf self1 reg1 ord1 pr2 fs fr fo (List.mem_cons_of_mem pr h2)
    rw [oppScan] at heq
    by_cases hmem : pr.2.node_index ∈ reg
    · rw [if_pos hmem] at heq
      obtain ⟨J1, J2, J3, ⟨suf, hsuf, hsufP⟩, J5, J6, J7, J8, J9⟩ :=
        ih hpairsR hfR (self.insertConn pr.2 pr.1) reg ord s2 r2 o2 heq hsh1
          hreg hnd hoi hmd1
      refine ⟨J1, fun q => (hgrow1 q).trans (J2 q), ?_, ?_, J5, J6, J7, ?_, J9⟩
      · intro pr2 h2
        rcases List.mem_cons.mp h2 with rfl | h3
        · exact J2 pr2.2 hland
        · exact J3 pr2 h3
      · refine ⟨suf, hsuf, fun m hm => ?_⟩
        obtain ⟨pr2, h2, h3⟩ := hsufP m hm
        exact ⟨pr2, List.mem_cons_of_mem pr h2, h3⟩
      · intro pr2 h2
        rcases List.mem_cons.mp h2 with rfl | h3
        · rw [J5, hsuf, List.toFinset_append]
          refine Finset.mem_union_left _ ?_
          rw [← hreg]
          exact hmem
        · exact J8 pr2 h3
    · rw [if_neg hmem] at heq
      have hnmord : pr.2.node_index ∉ ord := fun hc =>
        hmem (by rw [hreg]; exact List.mem_toFinset.mpr hc)
      by_cases hgb : pr.2.node_index.is_global
      · rw [if_pos hgb] at heq
        dsimp only at heq
        have hgl : pr.2.node_index = NodeIndex.Global := by
          cases hx : pr.2.node_index with
          | Global => rfl
          | Processor i => rw [hx] at hgb; simp [NodeIndex.is_global] at hgb
        have hnostep : ∀ m, ¬I.step pr.2.node_index m := by
          rw [hgl]
          exact no_step_from_global_of_ref I hone a s hs pr.2 hps hgl
        have hregeq2 := regEq_push reg ord pr.2.node_index hreg
        have hnodup2 := nodup_push ord pr.2.node_index hnd hnmord
        have hordinv2 := ordInv_push I ord pr.2.node_index hoi
          (fun m hstep => absurd hstep (hnostep m))
        have hmd2 : I.MirrorDone (self.insertConn pr.2 pr.1)
            (ord ++ [pr.2.node_index]) := by
          intro n hn hgn pr2 hpr2
          rcases List.mem_append.mp hn with hn1 | hn2
          · exact hmd1 n hn1 hgn pr2 hpr2
          · rw [List.mem_singleton] at hn2
            subst hn2
            rw [hgn] at hgb
            simp at hgb
        obtain ⟨J1, J2, J3, ⟨suf, hsuf, hsufP⟩, J5, J6, J7, J8, J9⟩ :=
          ih hpairsR hfR (self.insertConn pr.2 pr.1)
            (insert pr.2.node_index reg) (ord ++ [pr.2.node_index]) s2 r2 o2
            heq hsh1 hregeq2 hnodup2 hordinv2 hmd2
        have ho2 : o2 = ord ++ (pr.2.node_index :: suf) := by
          rw [hsuf, List.append_assoc]
          rfl
        refine ⟨J1, fun q => (hgrow1 q).trans (J2 q), ?_, ?_, J5, J6, J7, ?_,
          J9⟩
        · intro pr2 h2
          rcases List.mem_cons.mp h2 with rfl | h3
          · exact J2 pr2.2 hland
          · exact J3 pr2 h3
        · refine ⟨pr.2.node_index :: suf, ho2, fun m hm => ?_⟩
          rcases List.mem_cons.mp hm with rfl | h3
          · exact ⟨pr, List.mem_cons_self pr rest, Or.inl rfl⟩
          · obtain ⟨pr2, h4, h5⟩ := hsufP m h3
            exact ⟨pr2, List.mem_cons_of_mem pr h4, h5⟩
        · intro pr2 h2
          rcases List.mem_cons.mp h2 with rfl | h3
          · rw [J5, ho2, List.toFinset_append]
            refine Finset.mem_union_right _ ?_
            rw [List.toFinset_cons]
            exact Finset.mem_insert_self _ _
          · exact J8 pr2 h3
      · rw [if_neg hgb] at heq
        have hgf : pr.2.node_index.is_global = false := by
          cases hx : pr.2.node_index.is_global with
          | false => rfl
          | true => exact absurd hx hgb
        rcases hfc : f (self.insertConn pr.2 pr.1) pr.2.node_index reg ord
          with ⟨fs, fr, fo⟩
        rw [hfc] at heq
        dsimp only at heq
        obtain ⟨F1, F2, F3, ⟨sufF, hsufF, hsufFT⟩, F5, F6, F7, F8, F9⟩ :=
          hf (self.insertConn pr.2 pr.1) reg ord pr fs fr fo
            (List.mem_cons_self pr rest) hfc hgf hsh1 hreg hnd hoi hmd1
        have hnmfo : pr.2.node_index ∉ fo := by
          rw [hsufF]
          intro hc
          rcases List.mem_append.mp hc with hc1 | hc2
          · exact hnmord hc1
          · exact hfa pr.2.node_index (hsufFT _ hc2)
        have hregeq2 := regEq_push fr fo pr.2.node_index F5
        have hnodup2 := nodup_push fo pr.2.node_index F6 hnmfo
        have hordinv2 := ordInv_push I fo pr.2.node_index F7
          (fun m hstep => by
            have := F8 m hstep
            rw [F5] at this
            exact List.mem_toFinset.mp this)
        have hmd2 : I.MirrorDone fs (fo ++ [pr.2.node_index]) := by
          intro n hn hgn pr2 hpr2
          rcases List.mem_append.mp hn with hn1 | hn2
          · exact F9 n hn1 hgn pr2 hpr2
          · rw [List.mem_singleton] at hn2
            subst hn2
            exact F3 pr2 hpr2
        obtain ⟨J1, J2, J3, ⟨suf, hsuf, hsufP⟩, J5, J6, J7, J8, J9⟩ :=
          ih hpairsR hfR fs (insert pr.2.node_index fr)
            (fo ++ [pr.2.node_index]) s2 r2 o2 heq F1 hregeq2 hnodup2
            hordinv2 hmd2
        have ho2 : o2 = ord ++ (sufF ++ pr.2.node_index :: suf) := by
          rw [hsuf, hsufF, List.append_assoc, List.append_assoc]
          rfl
        refine ⟨J1, ?_, ?_, ?_, J5, J6, J7, ?_, J9⟩
        · intro q
          exact ((hgrow1 q).trans (F2 q)).trans (J2 q)
        · intro pr2 h2
          rcases List.mem_cons.mp h2 with rfl | h3
          · exact J2 pr2.2 (F2 pr2.2 hland)
          · exact J3 pr2 h3
        · refine ⟨sufF ++ pr.2.node_index :: suf, ho2, fun m hm => ?_⟩
          rcases List.mem_append.mp hm with hm1 | hm2
          · exact ⟨pr, List.mem_cons_self pr rest, Or.inr (hsufFT m hm1)⟩
          · rcases List.mem_cons.mp hm2 with rfl | hm3
            · exact ⟨pr, List.mem_cons_self pr rest, Or.inl rfl⟩
            · obtain ⟨pr2, h4, h5⟩ := hsufP m hm3
              exact ⟨pr2, List.mem_cons_of_mem pr h4, h5⟩
        · intro pr2 h2
          rcases List.mem_cons.mp h2 with rfl | h3
          · rw [J5, hsuf, List.toFinset_append, List.toFinset_append]
            refine Finset.mem_union_left _ (Finset.mem_union_right _ ?_)
            rw [List.toFinset_cons]
            exact Finset.mem_insert_self _ _
          · exact J8 pr2 h3

/-- Behaviour of the recursive `insert_opposite_ports` at a node `n`,
with enough fuel for the remaining acyclic descent (`C` is the set of
strict ancestors in the current recursion): the node's incoming primary
edges all get mirrored, every direct dependency of `n` ends registered,
and the registration invariants are maintained while the order grows
only by proper descendants of `n`. -/
theorem insertOppGo_spec (I : AudioGraphIo) (hwf : I.WF) (hdeg : I.WFDeg)
    (hone : I.GlobalOneSided)
    (hfa : ∀ n, ¬Relation.TransGen I.step n n) :
    ∀ (fuel : Nat) (n : NodeIndex) (C : Finset NodeIndex),
      C ⊆ I.validNodes → n ∈ I.validNodes →
      (∀ c ∈ C, Relation.TransGen I.step c n) →
      (I.validNodes \ C).card + 1 ≤ fuel →
      ∀ (self : AudioGraphIo) (reg : Finset NodeIndex) (ord : List NodeIndex)
        (s2 : AudioGraphIo) (r2 : Finset NodeIndex) (o2 : List NodeIndex),
        AudioGraphIo.insertOppGo I fuel self n reg ord = (s2, r2, o2) →
        I.MirrorShape self → reg = ord.toFinset → ord.Nodup → I.OrdInv ord →
        I.MirrorDone self ord →
        I.MirrorShape s2 ∧
        (∀ q, self.connections q ⊆ s2.connections q) ∧
        (∀ pr ∈ I.oppPairs n, pr.1 ∈ s2.connections pr.2) ∧
        (∃ suf, o2 = ord ++ suf ∧ ∀ m ∈ suf, Relation.TransGen I.step n m) ∧
        r2 = o2.toFinset ∧ o2.Nodup ∧ I.OrdInv o2 ∧
        (∀ m, I.step n m → m ∈ r2) ∧
        I.MirrorDone s2 o2 := by
  intro fuel
  induction fuel with
  | zero =>
    intro n C hCsub hnA hCreach hfuel
    exact absurd hfuel (by omega)
  | succ fuel ih =>
    intro n C hCsub hnA hCreach hfuel self reg ord s2 r2 o2 heq hsh hreg hnd
      hoi hmd
    rw [AudioGraphIo.insertOppGo] at heq
    have hnC : n ∉ C := fun hc => hfa n (hCreach n hc)
    have hmemA : n ∈ I.validNodes \ C := Finset.mem_sdiff.mpr ⟨hnA, hnC⟩
    have hcardpos : 0 < (I.validNodes \ C).card :=
      Finset.card_pos.mpr ⟨n, hmemA⟩
    have hfuel2 : ∀ (D : Finset NodeIndex), D = insert n C →
        (I.validNodes \ D).card + 1 ≤ fuel := by
      intro D hD
      subst hD
      have he : I.validNodes \ insert n C = (I.validNodes \ C).erase n :=
        Finset.sdiff_insert I.validNodes C n
      rw [he, Finset.card_erase_of_mem hmemA]
      omega
    have hscan := oppScan_spec I hwf hdeg hone hfa
      (AudioGraphIo.insertOppGo I fuel) (I.oppPairs n)
      (fun pr hpr => by
        obtain ⟨i, s, hget, hmem2, _⟩ := (mem_oppPairs I n pr).mp hpr
        exact ⟨n, s, List.getElem?_mem hget, hmem2⟩)
      (fun self1 reg1 ord1 pr fs fr fo hpr hfc hgf hsh1 hreg1 hnd1 hoi1
          hmd1 => by
        obtain ⟨i, s, hget, hmem2, _⟩ := (mem_oppPairs I n pr).mp hpr
        have hstepn : I.step n pr.2.node_index :=
          ⟨s, List.getElem?_mem hget, pr.2, hmem2, rfl⟩
        have hn1A : pr.2.node_index ∈ I.validNodes :=
          validNode_mem_validNodes I _
            (hwf n s (List.getElem?_mem hget) pr.2 hmem2)
        have hC2sub : insert n C ⊆ I.validNodes := by
          intro c hc
          rcases Finset.mem_insert.mp hc with rfl | hc2
          · exact hnA
          · exact hCsub hc2
        have hC2reach : ∀ c ∈ insert n C,
            Relation.TransGen I.step c pr.2.node_index := by
          intro c hc
          rcases Finset.mem_insert.mp hc with rfl | hc2
          · exact Relation.TransGen.single hstepn
          · exact (hCreach c hc2).tail hstepn
        exact ih pr.2.node_index (insert n C) hC2sub hn1A hC2reach
          (hfuel2 (insert n C) rfl) self1 reg1 ord1 fs fr fo hfc hsh1 hreg1
          hnd1 hoi1 hmd1)
      self reg ord s2 r2 o2 heq hsh hreg hnd hoi hmd
    obtain ⟨J1, J2, J3, ⟨suf, hsuf, hsufP⟩, J5, J6, J7, J8, J9⟩ := hscan
    refine ⟨J1, J2, J3, ?_, J5, J6, J7, ?_, J9⟩
    · refine ⟨suf, hsuf, fun m hm => ?_⟩
      obtain ⟨pr, hpr, hcase⟩ := hsufP m hm
      obtain ⟨i, s, hget, hmem2, _⟩ := (mem_oppPairs I n pr).mp hpr
      have hstepn : I.step n pr.2.node_index :=
        ⟨s, List.getElem?_mem hget, pr.2, hmem2, rfl⟩
      rcases hcase with rfl | htr
      · exact Relation.TransGen.single hstepn
      · exact Relation.TransGen.head hstepn htr
    · rintro m ⟨s, hs, p, hp, rfl⟩
      obtain ⟨i, hi⟩ := List.mem_iff_getElem?.mp hs
      have hpr : (Port.new i n, p) ∈ I.oppPairs n :=
        (mem_oppPairs I n (Port.new i n, p)).mpr ⟨i, s, hi, hp, rfl⟩
      exact J8 (Port.new i n, p) hpr

/-- Decidable sufficient condition for `WFDeg` on a concrete graph. -/
theorem WFDeg_of_parts (g : AudioGraphIo)
    (hg : ∀ s ∈ g.global.ports, ∀ p ∈ s,
      p.index < (g.node p.node_index).num_opposite_ports)
    (hp : ∀ k, k < g.processors.length →
      ∀ s ∈ (g.node (.Processor k)).ports, ∀ p ∈ s,
        p.index < (g.node p.node_index).num_opposite_ports) : g.WFDeg := by
  intro a s hs p hpmem
  cases a with
  | Global => exact hg s hs p hpmem
  | Processor k =>
    by_cases hk : k < g.processors.length
    · exact hp k hk s hs p hpmem
    · rw [AudioGraphIo.node, AudioGraphIo.get_node, StableVec.get,
        List.getElem?_eq_none (Nat.le_of_not_lt hk)] at hs
      simp at hs

/-- C6 (amended): running `insert_opposite_ports` on an acyclic,
well-formed primary graph with a one-sided global node, starting from an
existing node with the freshly built opposite-configured mirror and
empty `registered`/`register_order`: every primary edge whose
destination node was processed (the start node, or a non-global node
appearing in `register_order`) is mirrored as the corresponding
reverse-indexed connection, and `register_order` lists each node at most
once, in dependency-first order (a node appears only after everything it
transitively depends on via the primary graph). -/
theorem C6_dual_graph (I : AudioGraphIo) (start : NodeIndex)
    (hwf : I.WF) (hdeg : I.WFDeg) (hone : I.GlobalOneSided)
    (hacyc : I.AcyclicNG) (hstart : I.validNode start)
    (mirror : AudioGraphIo) (reg : Finset NodeIndex) (ord : List NodeIndex)
    (hrun : AudioGraphIo.insert_opposite_ports I.with_opposite_config I start
      ∅ [] = (mirror, reg, ord)) :
    (∀ (n : NodeIndex) (i : Nat) (s : Ports) (p : Port),
      (I.node n).ports[i]? = some s → p ∈ s →
      (n = start ∨ (n ∈ ord ∧ n.is_global = false)) →
      Port.new i n ∈ mirror.connections p) ∧
    ord.Nodup ∧
    (∀ k, (hk : k < ord.length) → ∀ m,
      Relation.TransGen I.step (ord.get ⟨k, hk⟩) m → m ∈ ord.take k) := by
  have hfa := acyclic_full I hacyc hone
  have hfuel : (I.validNodes \ ∅).card + 1 ≤ I.fuelBound := by
    rw [Finset.sdiff_empty, AudioGraphIo.fuelBound]
    have := card_validNodes_le I
    omega
  rw [AudioGraphIo.insert_opposite_ports] at hrun
  obtain ⟨J1, J2, J3, ⟨suf, hsuf, hsufT⟩, J5, J6, J7, J8, J9⟩ :=
    insertOppGo_spec I hwf hdeg hone hfa I.fuelBound start ∅
      (Finset.empty_subset _) (validNode_mem_validNodes I start hstart)
      (fun c hc => absurd hc (Finset.not_mem_empty c)) hfuel
      I.with_opposite_config ∅ [] mirror reg ord hrun
      (fun q => rfl) (by simp) List.nodup_nil
      (fun k hk => absurd hk (Nat.not_lt_zero k))
      (fun n hn => absurd hn (List.not_mem_nil n))
  refine ⟨?_, J6, ordInv_transGen I ord J7⟩
  intro n i s p hget hp hcase
  have hpr : (Port.new i n, p) ∈ I.oppPairs n :=
    (mem_oppPairs I n (Port.new i n, p)).mpr ⟨i, s, hget, hp, rfl⟩
  rcases hcase with rfl | ⟨hmem, hgf⟩
  · exact J3 (Port.new i n, p) hpr
  · exact J9 n hmem hgf (Port.new i n, p) hpr

/-- Witness for the amended C6 at `egPairE`, started from processor 0
(whose input port 0 is fed by processor 1's port 0). -/
theorem C6_dual_graph_witness :
    (∀ (n : NodeIndex) (i : Nat) (s : Ports) (p : Port),
      (egPairE.node n).ports[i]? = some s → p ∈ s →
      (n = .Processor 0 ∨
        (n ∈ (AudioGraphIo.insert_opposite_ports egPairE.with_opposite_config
          egPairE (.Processor 0) ∅ []).2.2 ∧ n.is_global = false)) →
      Port.new i n ∈ (AudioGraphIo.insert_opposite_ports
        egPairE.with_opposite_config egPairE (.Processor 0) ∅
          []).1.connections p) ∧
    (AudioGraphIo.insert_opposite_ports egPairE.with_opposite_config egPairE
      (.Processor 0) ∅ []).2.2.Nodup ∧
    (∀ k, (hk : k < (AudioGraphIo.insert_opposite_ports
        egPairE.with_opposite_config egPairE (.Processor 0) ∅
          []).2.2.length) → ∀ m,
      Relation.TransGen egPairE.step
        ((AudioGraphIo.insert_opposite_ports egPairE.with_opposite_config
          egPairE (.Processor 0) ∅ []).2.2.get ⟨k, hk⟩) m →
      m ∈ (AudioGraphIo.insert_opposite_ports egPairE.with_opposite_config
        egPairE (.Processor 0) ∅ []).2.2.take k) :=
  C6_dual_graph egPairE (.Processor 0)
    (WF_of_parts egPairE (by decide) (by decide))
    (WFDeg_of_parts egPairE (by decide) (by decide))
    (Or.inr (by decide))
    (acyclicNG_of_rank_bounded egPairE egPairRank (by decide) (by decide))
    (by decide)
    (AudioGraphIo.insert_opposite_ports egPairE.with_opposite_config egPairE
      (.Processor 0) ∅ []).1
    (AudioGraphIo.insert_opposite_ports egPairE.with_opposite_config egPairE
      (.Processor 0) ∅ []).2.1
    (AudioGraphIo.insert_opposite_ports egPairE.with_opposite_config egPairE
      (.Processor 0) ∅ []).2.2
    rfl
